import Mathlib

/-!
Verification of the AES-128 block-cipher engine and its mode-of-operation
layer (`src/aes/aes.py`, `src/aes/operation_modes.py`).

Bytes are modelled as `Nat` values below 256 (Python integers are unbounded,
and the code masks with `& 0xFF` exactly where the source does).  Byte strings
are `List Nat`.  The 4x4 AES state is `List (List Nat)` in row-major order,
exactly as the Python code's list-of-rows.  Fallible functions (the ones that
`raise ValueError`) return `Except String _` carrying the source's message.
The S-box tables are loaded from data files at run time in the source, so all
functions that consult them take the table as an explicit parameter.
-/

namespace KryptoAES

/-! ### GF(2^8) arithmetic (`gf_multiply`, aes.py lines 99-110) -/

/-- One iteration's update of `a` in `gf_multiply`'s loop:
`high_bit = a & 0x80; a <<= 1; if high_bit: a ^= 0x1B`. -/
def xtime (a : Nat) : Nat :=
  if a &&& 0x80 ≠ 0 then (a <<< 1) ^^^ 0x1B else (a <<< 1)

/-- The 8-iteration loop of `gf_multiply`, with the accumulator `result`
made explicit: `if b & 1: result ^= a`, then `a` is updated by `xtime`
and `b >>= 1`. -/
def gfMulAux : Nat → Nat → Nat → Nat → Nat
  | 0, _, _, result => result
  | n+1, a, b, result =>
      gfMulAux n (xtime a) (b >>> 1) (if b &&& 1 = 1 then result ^^^ a else result)

/-- `gf_multiply(a, b)`: run the loop for 8 iterations starting from
`result = 0`, then `return result & 0xFF`. -/
def gf_multiply (a b : Nat) : Nat := gfMulAux 8 a b 0 &&& 0xFF

theorem gf_multiply_lt (a b : Nat) : gf_multiply a b < 256 :=
  lt_of_le_of_lt Nat.and_le_right (by norm_num)

theorem xor_lt_256 {x y : Nat} (hx : x < 256) (hy : y < 256) : x ^^^ y < 256 :=
  Nat.xor_lt_two_pow (n := 8) (by norm_num at hx ⊢; exact hx) (by norm_num at hy ⊢; exact hy)

theorem xor_shiftRight_distrib (x y n : Nat) :
    (x ^^^ y) >>> n = x >>> n ^^^ y >>> n := by
  apply Nat.eq_of_testBit_eq; intro i
  simp [Nat.testBit_shiftRight, Nat.testBit_xor]

theorem xor_shiftLeft_distrib (x y n : Nat) :
    (x ^^^ y) <<< n = x <<< n ^^^ y <<< n := by
  apply Nat.eq_of_testBit_eq; intro i
  simp only [Nat.testBit_shiftLeft, Nat.testBit_xor]
  cases Nat.decLe n i with
  | isTrue h => simp [h]
  | isFalse h => simp [h]

theorem xor_left_comm_nat (x y z : Nat) : x ^^^ (y ^^^ z) = y ^^^ (x ^^^ z) := by
  rw [← Nat.xor_assoc, Nat.xor_comm x y, Nat.xor_assoc]

theorem xor_cancel_nat (x y : Nat) : x ^^^ y ^^^ y = x := by
  rw [Nat.xor_assoc, Nat.xor_self, Nat.xor_zero]

theorem xor_cancel_left_nat (x y : Nat) : x ^^^ (x ^^^ y) = y := by
  rw [← Nat.xor_assoc, Nat.xor_self, Nat.zero_xor]

theorem and_128_eq (x : Nat) : x &&& 0x80 = (x.testBit 7).toNat * 128 := by
  have h := Nat.and_two_pow x 7
  norm_num at h
  exact h

theorem and_1_eq (x : Nat) : x &&& 1 = (x.testBit 0).toNat := by
  rw [Nat.and_one_is_mod, Nat.testBit_zero]
  rcases Nat.mod_two_eq_zero_or_one x with h | h <;> simp [h]

/-- `xtime` is additive over XOR: the conditional reduction by `0x1B`
either hits both summands or neither, or hits exactly the combined term. -/
theorem xtime_xor (a₁ a₂ : Nat) : xtime (a₁ ^^^ a₂) = xtime a₁ ^^^ xtime a₂ := by
  unfold xtime
  have h12 : (a₁ ^^^ a₂).testBit 7 = ((a₁.testBit 7).xor (a₂.testBit 7)) :=
    Nat.testBit_xor a₁ a₂ 7
  cases h₁ : a₁.testBit 7 <;> cases h₂ : a₂.testBit 7 <;>
    simp [and_128_eq, h₁, h₂, h12, xor_shiftLeft_distrib, Nat.xor_assoc,
      Nat.xor_comm, xor_left_comm_nat]

/-- The loop body is additive over XOR in the `b`/`result` pair. -/
theorem gfMulAux_xor_right : ∀ (n a b₁ b₂ r₁ r₂ : Nat),
    gfMulAux n a (b₁ ^^^ b₂) (r₁ ^^^ r₂) = gfMulAux n a b₁ r₁ ^^^ gfMulAux n a b₂ r₂ := by
  intro n
  induction n with
  | zero => intro a b₁ b₂ r₁ r₂; simp [gfMulAux]
  | succ n ih =>
    intro a b₁ b₂ r₁ r₂
    simp only [gfMulAux, xor_shiftRight_distrib]
    have hbit : (b₁ ^^^ b₂).testBit 0 = ((b₁.testBit 0).xor (b₂.testBit 0)) :=
      Nat.testBit_xor b₁ b₂ 0
    cases h₁ : b₁.testBit 0 <;> cases h₂ : b₂.testBit 0
    · have e₁ : ¬(b₁ &&& 1 = 1) := by rw [and_1_eq, h₁]; decide
      have e₂ : ¬(b₂ &&& 1 = 1) := by rw [and_1_eq, h₂]; decide
      have e₁₂ : ¬((b₁ ^^^ b₂) &&& 1 = 1) := by rw [and_1_eq, hbit, h₁, h₂]; decide
      rw [if_neg e₁, if_neg e₂, if_neg e₁₂]
      exact ih (xtime a) (b₁ >>> 1) (b₂ >>> 1) r₁ r₂
    · have e₁ : ¬(b₁ &&& 1 = 1) := by rw [and_1_eq, h₁]; decide
      have e₂ : b₂ &&& 1 = 1 := by rw [and_1_eq, h₂]; rfl
      have e₁₂ : (b₁ ^^^ b₂) &&& 1 = 1 := by rw [and_1_eq, hbit, h₁, h₂]; rfl
      rw [if_neg e₁, if_pos e₂, if_pos e₁₂, Nat.xor_assoc r₁ r₂ a]
      exact ih (xtime a) (b₁ >>> 1) (b₂ >>> 1) r₁ (r₂ ^^^ a)
    · have e₁ : b₁ &&& 1 = 1 := by rw [and_1_eq, h₁]; rfl
      have e₂ : ¬(b₂ &&& 1 = 1) := by rw [and_1_eq, h₂]; decide
      have e₁₂ : (b₁ ^^^ b₂) &&& 1 = 1 := by rw [and_1_eq, hbit, h₁, h₂]; rfl
      have h : r₁ ^^^ r₂ ^^^ a = (r₁ ^^^ a) ^^^ r₂ := by
        rw [Nat.xor_assoc r₁ a r₂, Nat.xor_assoc r₁ r₂ a, Nat.xor_comm a r₂]
      rw [if_pos e₁, if_neg e₂, if_pos e₁₂, h]
      exact ih (xtime a) (b₁ >>> 1) (b₂ >>> 1) (r₁ ^^^ a) r₂
    · have e₁ : b₁ &&& 1 = 1 := by rw [and_1_eq, h₁]; rfl
      have e₂ : b₂ &&& 1 = 1 := by rw [and_1_eq, h₂]; rfl
      have e₁₂ : ¬((b₁ ^^^ b₂) &&& 1 = 1) := by rw [and_1_eq, hbit, h₁, h₂]; decide
      have h : r₁ ^^^ r₂ = (r₁ ^^^ a) ^^^ (r₂ ^^^ a) := by
        rw [Nat.xor_assoc r₁ a (r₂ ^^^ a), xor_left_comm_nat a r₂ a, Nat.xor_self,
          Nat.xor_zero]
      rw [if_pos e₁, if_pos e₂, if_neg e₁₂, h]
      exact ih (xtime a) (b₁ >>> 1) (b₂ >>> 1) (r₁ ^^^ a) (r₂ ^^^ a)

/-- The loop body is additive over XOR in the `a`/`result` pair. -/
theorem gfMulAux_xor_left : ∀ (n a₁ a₂ b r₁ r₂ : Nat),
    gfMulAux n (a₁ ^^^ a₂) b (r₁ ^^^ r₂) = gfMulAux n a₁ b r₁ ^^^ gfMulAux n a₂ b r₂ := by
  intro n
  induction n with
  | zero => intro a₁ a₂ b r₁ r₂; simp [gfMulAux]
  | succ n ih =>
    intro a₁ a₂ b r₁ r₂
    simp only [gfMulAux, xtime_xor]
    by_cases hb : b &&& 1 = 1
    · simp only [if_pos hb]
      have h : r₁ ^^^ r₂ ^^^ (a₁ ^^^ a₂) = (r₁ ^^^ a₁) ^^^ (r₂ ^^^ a₂) := by
        rw [Nat.xor_assoc r₁ a₁ (r₂ ^^^ a₂), xor_left_comm_nat a₁ r₂ a₂,
          ← Nat.xor_assoc r₁ r₂ (a₁ ^^^ a₂)]
      rw [h]
      exact ih (xtime a₁) (xtime a₂) (b >>> 1) (r₁ ^^^ a₁) (r₂ ^^^ a₂)
    · simp only [if_neg hb]
      simpa using ih (xtime a₁) (xtime a₂) (b >>> 1) r₁ r₂

/-- `gf_multiply` distributes over XOR in its second argument. -/
theorem gf_multiply_xor_right (a b c : Nat) :
    gf_multiply a (b ^^^ c) = gf_multiply a b ^^^ gf_multiply a c := by
  unfold gf_multiply
  have h := gfMulAux_xor_right 8 a b c 0 0
  simp only [Nat.xor_self] at h
  rw [h, Nat.and_xor_distrib_right]

/-- `gf_multiply` distributes over XOR in its first argument. -/
theorem gf_multiply_xor_left (a b c : Nat) :
    gf_multiply (a ^^^ b) c = gf_multiply a c ^^^ gf_multiply b c := by
  unfold gf_multiply
  have h := gfMulAux_xor_left 8 a b c 0 0
  simp only [Nat.xor_self] at h
  rw [h, Nat.and_xor_distrib_right]

theorem gfMulAux_zero_left : ∀ (n b r : Nat), gfMulAux n 0 b r = r := by
  intro n
  induction n with
  | zero => intro b r; simp [gfMulAux]
  | succ n ih =>
    intro b r
    simp only [gfMulAux]
    have hx : xtime 0 = 0 := by simp [xtime]
    rw [hx]
    by_cases hb : b &&& 1 = 1
    · rw [if_pos hb, Nat.xor_zero, ih]
    · rw [if_neg hb, ih]

theorem gfMulAux_zero_right : ∀ (n a r : Nat), gfMulAux n a 0 r = r := by
  intro n
  induction n with
  | zero => intro a r; simp [gfMulAux]
  | succ n ih => intro a r; simp [gfMulAux, ih]

theorem gf_multiply_zero_left (b : Nat) : gf_multiply 0 b = 0 := by
  simp [gf_multiply, gfMulAux_zero_left]

theorem gf_multiply_zero_right (a : Nat) : gf_multiply a 0 = 0 := by
  simp [gf_multiply, gfMulAux_zero_right]

set_option maxRecDepth 8000 in
theorem gf_comm_pow : ∀ j < 8, ∀ b < 256, gf_multiply (2^j) b = gf_multiply b (2^j) := by
  decide

/-- For `r < 2^n`, the bits of `2^n` and `r` are disjoint, so XOR is OR. -/
theorem two_pow_xor_eq_lor {n r : Nat} (h : r < 2^n) : 2^n ^^^ r = 2^n ||| r := by
  apply Nat.eq_of_testBit_eq; intro i
  rcases eq_or_ne i n with rfl | hne
  · simp [Nat.testBit_xor, Nat.testBit_lor, Nat.testBit_eq_false_of_lt h]
  · simp [Nat.testBit_xor, Nat.testBit_lor, Nat.testBit_two_pow_of_ne (Ne.symm hne)]

/-- For `r < 2^n`, OR with `2^n` is ordinary addition. -/
theorem two_pow_lor_eq_add : ∀ (n : Nat), ∀ r < 2^n, 2^n ||| r = 2^n + r := by
  intro n
  induction n with
  | zero => intro r hr; interval_cases r; rfl
  | succ n ih =>
    intro r hr
    have hpow2 : (2:Nat)^(n+1) = 2 * 2^n := by rw [Nat.pow_succ]; ring
    have hdecomp : 2 * r.div2 + (r.bodd).toNat = r := by
      have h := Nat.bit_decomp r
      rw [Nat.bit_val] at h
      exact h
    have hpow : (2:Nat)^(n+1) = Nat.bit false (2^n) := by
      rw [Nat.bit_val]
      simp [hpow2]
    have hdiv : r.div2 < 2^n := by
      rw [Nat.div2_val]
      omega
    calc 2^(n+1) ||| r = Nat.bit false (2^n) ||| Nat.bit r.bodd r.div2 := by
          rw [← hpow, Nat.bit_decomp r]
      _ = Nat.bit (false || r.bodd) (2^n ||| r.div2) := Nat.lor_bit _ _ _ _
      _ = Nat.bit r.bodd (2^n + r.div2) := by rw [ih r.div2 hdiv]; simp
      _ = 2^(n+1) + r := by
          rw [Nat.bit_val]
          cases hb : r.bodd <;> simp [hb] at hdecomp ⊢ <;> omega

theorem two_pow_xor_eq_add {n r : Nat} (h : r < 2^n) : 2^n ^^^ r = 2^n + r := by
  rw [two_pow_xor_eq_lor h, two_pow_lor_eq_add n r h]

/-- Commutativity of `gf_multiply` on byte inputs, by bit decomposition of
the first argument and bilinearity. -/
theorem gf_multiply_comm : ∀ a, a < 256 → ∀ b < 256, gf_multiply a b = gf_multiply b a := by
  intro a
  induction a using Nat.strong_induction_on with
  | _ a ih =>
    intro ha b hb
    rcases Nat.eq_zero_or_pos a with rfl | hpos
    · rw [gf_multiply_zero_left, gf_multiply_zero_right]
    · set j := Nat.log 2 a with hj
      have hja : 2^j ≤ a := Nat.pow_log_le_self 2 (by omega)
      have haj : a < 2^(j+1) := Nat.lt_pow_succ_log_self (by omega) a
      have hj8 : j < 8 := by
        by_contra hc
        have : (2:Nat)^8 ≤ 2^j := Nat.pow_le_pow_right (by omega) (by omega)
        omega
      set r := a - 2^j with hr
      have hrj : r < 2^j := by
        have := Nat.pow_succ 2 j
        omega
      have hsplit : a = 2^j ^^^ r := by
        rw [two_pow_xor_eq_add hrj]; omega
      have hra : r < a := by
        have : (0:Nat) < 2^j := Nat.pos_pow_of_pos j (by omega)
        omega
      have hr256 : r < 256 := by omega
      calc gf_multiply a b = gf_multiply (2^j ^^^ r) b := by rw [← hsplit]
        _ = gf_multiply (2^j) b ^^^ gf_multiply r b := gf_multiply_xor_left _ _ _
        _ = gf_multiply b (2^j) ^^^ gf_multiply b r := by
            rw [gf_comm_pow j hj8 b hb, ih r hra hr256 b hb]
        _ = gf_multiply b (2^j ^^^ r) := (gf_multiply_xor_right _ _ _).symm
        _ = gf_multiply b a := by rw [← hsplit]

/-! ### S-box lookup and the 4x4 state (aes.py lines 38-96, 113-124) -/

/-- Table lookup `table[byte >> 4][byte & 0x0F]` used by `sub_bytes`,
`inv_sub_bytes` and `sub_word`. -/
def sbox_lookup (table : List (List Nat)) (b : Nat) : Nat :=
  (table.getD (b >>> 4) []).getD (b &&& 0x0F) 0

/-- Entry `state[r][c]` of a 4x4 state. -/
def stEntry (s : List (List Nat)) (r c : Nat) : Nat := (s.getD r []).getD c 0

/-- `bytes_to_state`: 16 bytes to a 4x4 matrix in column-major order,
`state[i % 4][i // 4] = data[i]`. -/
def bytes_to_state (data : List Nat) : List (List Nat) :=
  [[data.getD 0 0, data.getD 4 0, data.getD 8 0, data.getD 12 0],
   [data.getD 1 0, data.getD 5 0, data.getD 9 0, data.getD 13 0],
   [data.getD 2 0, data.getD 6 0, data.getD 10 0, data.getD 14 0],
   [data.getD 3 0, data.getD 7 0, data.getD 11 0, data.getD 15 0]]

/-- `state_to_bytes`: read the 4x4 matrix back out column by column. -/
def state_to_bytes (s : List (List Nat)) : List Nat :=
  [stEntry s 0 0, stEntry s 1 0, stEntry s 2 0, stEntry s 3 0,
   stEntry s 0 1, stEntry s 1 1, stEntry s 2 1, stEntry s 3 1,
   stEntry s 0 2, stEntry s 1 2, stEntry s 2 2, stEntry s 3 2,
   stEntry s 0 3, stEntry s 1 3, stEntry s 2 3, stEntry s 3 3]

/-- `sub_bytes`: apply the S-box to each byte of the state. -/
def sub_bytes (state : List (List Nat)) (s_box : List (List Nat)) : List (List Nat) :=
  state.map (fun row => row.map (sbox_lookup s_box))

/-- `inv_sub_bytes`: apply the inverse S-box to each byte of the state. -/
def inv_sub_bytes (state : List (List Nat)) (inv_s_box : List (List Nat)) : List (List Nat) :=
  state.map (fun row => row.map (sbox_lookup inv_s_box))

/-- Cyclic left rotation `row[n:] + row[:n]` used by `shift_rows`. -/
def rot_left (row : List Nat) (n : Nat) : List Nat := row.drop n ++ row.take n

/-- Cyclic right rotation `row[-n:] + row[:-n]` used by `inv_shift_rows`. -/
def rot_right (row : List Nat) (n : Nat) : List Nat :=
  row.drop (row.length - n) ++ row.take (row.length - n)

/-- `shift_rows`: row `i` rotates left by `i`. -/
def shift_rows (s : List (List Nat)) : List (List Nat) :=
  [s.getD 0 [], rot_left (s.getD 1 []) 1, rot_left (s.getD 2 []) 2, rot_left (s.getD 3 []) 3]

/-- `inv_shift_rows`: row `i` rotates right by `i`. -/
def inv_shift_rows (s : List (List Nat)) : List (List Nat) :=
  [s.getD 0 [], rot_right (s.getD 1 []) 1, rot_right (s.getD 2 []) 2, rot_right (s.getD 3 []) 3]

/-- Column `c` of the state, the `temp` vector of `mix_columns`. -/
def get_col (s : List (List Nat)) (c : Nat) : List Nat :=
  [stEntry s 0 c, stEntry s 1 c, stEntry s 2 c, stEntry s 3 c]

/-- The forward MixColumns matrix applied to one column. -/
def mix_column (t : List Nat) : List Nat :=
  [gf_multiply 2 (t.getD 0 0) ^^^ gf_multiply 3 (t.getD 1 0) ^^^ t.getD 2 0 ^^^ t.getD 3 0,
   t.getD 0 0 ^^^ gf_multiply 2 (t.getD 1 0) ^^^ gf_multiply 3 (t.getD 2 0) ^^^ t.getD 3 0,
   t.getD 0 0 ^^^ t.getD 1 0 ^^^ gf_multiply 2 (t.getD 2 0) ^^^ gf_multiply 3 (t.getD 3 0),
   gf_multiply 3 (t.getD 0 0) ^^^ t.getD 1 0 ^^^ t.getD 2 0 ^^^ gf_multiply 2 (t.getD 3 0)]

/-- The inverse MixColumns matrix applied to one column. -/
def inv_mix_column (t : List Nat) : List Nat :=
  [gf_multiply 0x0E (t.getD 0 0) ^^^ gf_multiply 0x0B (t.getD 1 0) ^^^
     gf_multiply 0x0D (t.getD 2 0) ^^^ gf_multiply 0x09 (t.getD 3 0),
   gf_multiply 0x09 (t.getD 0 0) ^^^ gf_multiply 0x0E (t.getD 1 0) ^^^
     gf_multiply 0x0B (t.getD 2 0) ^^^ gf_multiply 0x0D (t.getD 3 0),
   gf_multiply 0x0D (t.getD 0 0) ^^^ gf_multiply 0x09 (t.getD 1 0) ^^^
     gf_multiply 0x0E (t.getD 2 0) ^^^ gf_multiply 0x0B (t.getD 3 0),
   gf_multiply 0x0B (t.getD 0 0) ^^^ gf_multiply 0x0D (t.getD 1 0) ^^^
     gf_multiply 0x09 (t.getD 2 0) ^^^ gf_multiply 0x0E (t.getD 3 0)]

/-- Reassemble a state from its four columns. -/
def cols_to_state (c0 c1 c2 c3 : List Nat) : List (List Nat) :=
  [[c0.getD 0 0, c1.getD 0 0, c2.getD 0 0, c3.getD 0 0],
   [c0.getD 1 0, c1.getD 1 0, c2.getD 1 0, c3.getD 1 0],
   [c0.getD 2 0, c1.getD 2 0, c2.getD 2 0, c3.getD 2 0],
   [c0.getD 3 0, c1.getD 3 0, c2.getD 3 0, c3.getD 3 0]]

/-- `mix_columns`: the MDS matrix applied to each column. -/
def mix_columns (s : List (List Nat)) : List (List Nat) :=
  cols_to_state (mix_column (get_col s 0)) (mix_column (get_col s 1))
    (mix_column (get_col s 2)) (mix_column (get_col s 3))

/-- `inv_mix_columns`: the inverse MDS matrix applied to each column. -/
def inv_mix_columns (s : List (List Nat)) : List (List Nat) :=
  cols_to_state (inv_mix_column (get_col s 0)) (inv_mix_column (get_col s 1))
    (inv_mix_column (get_col s 2)) (inv_mix_column (get_col s 3))

/-- `bytes([b ^ c for b, c in zip(xs, ys)])` — elementwise XOR, truncating to
the shorter operand exactly as `zip` does. -/
def xor_bytes (xs ys : List Nat) : List Nat := List.zipWith (fun b c => b ^^^ c) xs ys

/-- `add_round_key`: XOR the state with the round key viewed as a state. -/
def add_round_key (state : List (List Nat)) (round_key : List Nat) : List (List Nat) :=
  List.zipWith (fun row krow => List.zipWith (fun x k => x ^^^ k) row krow)
    state (bytes_to_state round_key)

/-- A well-formed AES state: 4 rows of 4 bytes each. -/
def ValidState (s : List (List Nat)) : Prop :=
  s.length = 4 ∧ ∀ row ∈ s, row.length = 4 ∧ ∀ x ∈ row, x < 256

theorem list_cons_of_length_succ {α : Type} {l : List α} {n : Nat} (h : l.length = n + 1) :
    ∃ x t, l = x :: t ∧ t.length = n := by
  cases l with
  | nil => simp at h
  | cons x t => exact ⟨x, t, rfl, by simpa using h⟩

theorem list_len4_shape {α : Type} {l : List α} (h : l.length = 4) :
    ∃ a b c d, l = [a, b, c, d] := by
  obtain ⟨a, t₁, rfl, h₁⟩ := list_cons_of_length_succ h
  obtain ⟨b, t₂, rfl, h₂⟩ := list_cons_of_length_succ h₁
  obtain ⟨c, t₃, rfl, h₃⟩ := list_cons_of_length_succ h₂
  obtain ⟨d, t₄, rfl, h₄⟩ := list_cons_of_length_succ h₃
  rw [List.length_eq_zero.mp h₄]
  exact ⟨a, b, c, d, rfl⟩

theorem valid_state_shape {s : List (List Nat)} (h : ValidState s) :
    ∃ a₀ a₁ a₂ a₃ b₀ b₁ b₂ b₃ c₀ c₁ c₂ c₃ d₀ d₁ d₂ d₃,
      s = [[a₀, a₁, a₂, a₃], [b₀, b₁, b₂, b₃], [c₀, c₁, c₂, c₃], [d₀, d₁, d₂, d₃]] ∧
      (a₀ < 256 ∧ a₁ < 256 ∧ a₂ < 256 ∧ a₃ < 256) ∧
      (b₀ < 256 ∧ b₁ < 256 ∧ b₂ < 256 ∧ b₃ < 256) ∧
      (c₀ < 256 ∧ c₁ < 256 ∧ c₂ < 256 ∧ c₃ < 256) ∧
      (d₀ < 256 ∧ d₁ < 256 ∧ d₂ < 256 ∧ d₃ < 256) := by
  obtain ⟨hlen, hmem⟩ := h
  obtain ⟨r0, r1, r2, r3, rfl⟩ := list_len4_shape hlen
  have h0 := hmem r0 (by simp)
  have h1 := hmem r1 (by simp)
  have h2 := hmem r2 (by simp)
  have h3 := hmem r3 (by simp)
  obtain ⟨a₀, a₁, a₂, a₃, rfl⟩ := list_len4_shape h0.1
  obtain ⟨b₀, b₁, b₂, b₃, rfl⟩ := list_len4_shape h1.1
  obtain ⟨c₀, c₁, c₂, c₃, rfl⟩ := list_len4_shape h2.1
  obtain ⟨d₀, d₁, d₂, d₃, rfl⟩ := list_len4_shape h3.1
  refine ⟨a₀, a₁, a₂, a₃, b₀, b₁, b₂, b₃, c₀, c₁, c₂, c₃, d₀, d₁, d₂, d₃, rfl, ?_, ?_, ?_, ?_⟩
  · exact ⟨h0.2 _ (by simp), h0.2 _ (by simp), h0.2 _ (by simp), h0.2 _ (by simp)⟩
  · exact ⟨h1.2 _ (by simp), h1.2 _ (by simp), h1.2 _ (by simp), h1.2 _ (by simp)⟩
  · exact ⟨h2.2 _ (by simp), h2.2 _ (by simp), h2.2 _ (by simp), h2.2 _ (by simp)⟩
  · exact ⟨h3.2 _ (by simp), h3.2 _ (by simp), h3.2 _ (by simp), h3.2 _ (by simp)⟩

theorem valid_state_mk {a₀ a₁ a₂ a₃ b₀ b₁ b₂ b₃ c₀ c₁ c₂ c₃ d₀ d₁ d₂ d₃ : Nat}
    (ha : a₀ < 256 ∧ a₁ < 256 ∧ a₂ < 256 ∧ a₃ < 256)
    (hb : b₀ < 256 ∧ b₁ < 256 ∧ b₂ < 256 ∧ b₃ < 256)
    (hc : c₀ < 256 ∧ c₁ < 256 ∧ c₂ < 256 ∧ c₃ < 256)
    (hd : d₀ < 256 ∧ d₁ < 256 ∧ d₂ < 256 ∧ d₃ < 256) :
    ValidState [[a₀, a₁, a₂, a₃], [b₀, b₁, b₂, b₃], [c₀, c₁, c₂, c₃], [d₀, d₁, d₂, d₃]] := by
  refine ⟨rfl, ?_⟩
  intro row hrow
  fin_cases hrow <;> refine ⟨rfl, ?_⟩ <;> intro x hx <;> fin_cases hx <;> omega


/-! ### Inversion of the four round operations on valid states -/

instance : Std.Associative (α := Nat) (· ^^^ ·) := ⟨Nat.xor_assoc⟩

instance : Std.Commutative (α := Nat) (· ^^^ ·) := ⟨Nat.xor_comm⟩

set_option maxRecDepth 8000 in
theorem gf_inv_scalar0 : ∀ x < 256,
    gf_multiply 0x0E (gf_multiply 2 x) ^^^ gf_multiply 0x0B x ^^^ gf_multiply 0x0D x ^^^
      gf_multiply 0x09 (gf_multiply 3 x) = x := by
  decide

set_option maxRecDepth 8000 in
theorem gf_inv_scalar1 : ∀ x < 256,
    gf_multiply 0x0E (gf_multiply 3 x) ^^^ gf_multiply 0x0B (gf_multiply 2 x) ^^^
      gf_multiply 0x0D x ^^^ gf_multiply 0x09 x = 0 := by
  decide

set_option maxRecDepth 8000 in
theorem gf_inv_scalar2 : ∀ x < 256,
    gf_multiply 0x0E x ^^^ gf_multiply 0x0B (gf_multiply 3 x) ^^^
      gf_multiply 0x0D (gf_multiply 2 x) ^^^ gf_multiply 0x09 x = 0 := by
  decide

set_option maxRecDepth 8000 in
theorem gf_inv_scalar3 : ∀ x < 256,
    gf_multiply 0x0E x ^^^ gf_multiply 0x0B x ^^^ gf_multiply 0x0D (gf_multiply 3 x) ^^^
      gf_multiply 0x09 (gf_multiply 2 x) = 0 := by
  decide

/-- The inverse MixColumns matrix really inverts the forward one on a column
of bytes. -/
theorem inv_mix_mix_column (a b c d : Nat) (ha : a < 256) (hb : b < 256)
    (hc : c < 256) (hd : d < 256) :
    inv_mix_column (mix_column [a, b, c, d]) = [a, b, c, d] := by
  simp only [mix_column, inv_mix_column, List.getD_cons_zero, List.getD_cons_succ]
  simp only [gf_multiply_xor_right]
  simp only [List.cons.injEq, and_true]
  refine ⟨?_, ?_, ?_, ?_⟩
  · refine Eq.trans (b :=
      (gf_multiply 0x0E (gf_multiply 2 a) ^^^ gf_multiply 0x0B a ^^^ gf_multiply 0x0D a ^^^
        gf_multiply 0x09 (gf_multiply 3 a)) ^^^
      ((gf_multiply 0x0E (gf_multiply 3 b) ^^^ gf_multiply 0x0B (gf_multiply 2 b) ^^^
        gf_multiply 0x0D b ^^^ gf_multiply 0x09 b) ^^^
      ((gf_multiply 0x0E c ^^^ gf_multiply 0x0B (gf_multiply 3 c) ^^^
        gf_multiply 0x0D (gf_multiply 2 c) ^^^ gf_multiply 0x09 c) ^^^
      (gf_multiply 0x0E d ^^^ gf_multiply 0x0B d ^^^ gf_multiply 0x0D (gf_multiply 3 d) ^^^
        gf_multiply 0x09 (gf_multiply 2 d))))) ?_ ?_
    · ac_rfl
    · rw [gf_inv_scalar0 a ha, gf_inv_scalar1 b hb, gf_inv_scalar2 c hc, gf_inv_scalar3 d hd]
      simp
  · refine Eq.trans (b :=
      (gf_multiply 0x0E a ^^^ gf_multiply 0x0B a ^^^ gf_multiply 0x0D (gf_multiply 3 a) ^^^
        gf_multiply 0x09 (gf_multiply 2 a)) ^^^
      ((gf_multiply 0x0E (gf_multiply 2 b) ^^^ gf_multiply 0x0B b ^^^ gf_multiply 0x0D b ^^^
        gf_multiply 0x09 (gf_multiply 3 b)) ^^^
      ((gf_multiply 0x0E (gf_multiply 3 c) ^^^ gf_multiply 0x0B (gf_multiply 2 c) ^^^
        gf_multiply 0x0D c ^^^ gf_multiply 0x09 c) ^^^
      (gf_multiply 0x0E d ^^^ gf_multiply 0x0B (gf_multiply 3 d) ^^^
        gf_multiply 0x0D (gf_multiply 2 d) ^^^ gf_multiply 0x09 d)))) ?_ ?_
    · ac_rfl
    · rw [gf_inv_scalar3 a ha, gf_inv_scalar0 b hb, gf_inv_scalar1 c hc, gf_inv_scalar2 d hd]
      simp
  · refine Eq.trans (b :=
      (gf_multiply 0x0E a ^^^ gf_multiply 0x0B (gf_multiply 3 a) ^^^
        gf_multiply 0x0D (gf_multiply 2 a) ^^^ gf_multiply 0x09 a) ^^^
      ((gf_multiply 0x0E b ^^^ gf_multiply 0x0B b ^^^ gf_multiply 0x0D (gf_multiply 3 b) ^^^
        gf_multiply 0x09 (gf_multiply 2 b)) ^^^
      ((gf_multiply 0x0E (gf_multiply 2 c) ^^^ gf_multiply 0x0B c ^^^ gf_multiply 0x0D c ^^^
        gf_multiply 0x09 (gf_multiply 3 c)) ^^^
      (gf_multiply 0x0E (gf_multiply 3 d) ^^^ gf_multiply 0x0B (gf_multiply 2 d) ^^^
        gf_multiply 0x0D d ^^^ gf_multiply 0x09 d)))) ?_ ?_
    · ac_rfl
    · rw [gf_inv_scalar2 a ha, gf_inv_scalar3 b hb, gf_inv_scalar0 c hc, gf_inv_scalar1 d hd]
      simp
  · refine Eq.trans (b :=
      (gf_multiply 0x0E (gf_multiply 3 a) ^^^ gf_multiply 0x0B (gf_multiply 2 a) ^^^
        gf_multiply 0x0D a ^^^ gf_multiply 0x09 a) ^^^
      ((gf_multiply 0x0E b ^^^ gf_multiply 0x0B (gf_multiply 3 b) ^^^
        gf_multiply 0x0D (gf_multiply 2 b) ^^^ gf_multiply 0x09 b) ^^^
      ((gf_multiply 0x0E c ^^^ gf_multiply 0x0B c ^^^ gf_multiply 0x0D (gf_multiply 3 c) ^^^
        gf_multiply 0x09 (gf_multiply 2 c)) ^^^
      (gf_multiply 0x0E (gf_multiply 2 d) ^^^ gf_multiply 0x0B d ^^^ gf_multiply 0x0D d ^^^
        gf_multiply 0x09 (gf_multiply 3 d))))) ?_ ?_
    · ac_rfl
    · rw [gf_inv_scalar1 a ha, gf_inv_scalar2 b hb, gf_inv_scalar3 c hc, gf_inv_scalar0 d hd]
      simp

theorem getD_lt_256 {l : List Nat} (h : ∀ x ∈ l, x < 256) (i : Nat) : l.getD i 0 < 256 := by
  by_cases hi : i < l.length
  · rw [List.getD_eq_getElem l 0 hi]
    exact h _ (List.getElem_mem hi)
  · rw [List.getD_eq_default]
    · norm_num
    · omega

/-- `inv_shift_rows` undoes `shift_rows` on a 4x4 state. -/
theorem inv_shift_rows_shift_rows {s : List (List Nat)} (hs : ValidState s) :
    inv_shift_rows (shift_rows s) = s := by
  obtain ⟨a₀, a₁, a₂, a₃, b₀, b₁, b₂, b₃, c₀, c₁, c₂, c₃, d₀, d₁, d₂, d₃, rfl, -, -, -, -⟩ :=
    valid_state_shape hs
  rfl

/-- `inv_sub_bytes` with a left-inverse table undoes `sub_bytes`. -/
theorem inv_sub_bytes_sub_bytes {sb isb : List (List Nat)} {s : List (List Nat)}
    (hs : ValidState s)
    (hinv : ∀ x < 256, sbox_lookup isb (sbox_lookup sb x) = x) :
    inv_sub_bytes (sub_bytes s sb) isb = s := by
  obtain ⟨a₀, a₁, a₂, a₃, b₀, b₁, b₂, b₃, c₀, c₁, c₂, c₃, d₀, d₁, d₂, d₃, rfl, ha, hb, hc, hd⟩ :=
    valid_state_shape hs
  simp only [sub_bytes, inv_sub_bytes, List.map_cons, List.map_nil]
  rw [hinv a₀ ha.1, hinv a₁ ha.2.1, hinv a₂ ha.2.2.1, hinv a₃ ha.2.2.2,
    hinv b₀ hb.1, hinv b₁ hb.2.1, hinv b₂ hb.2.2.1, hinv b₃ hb.2.2.2,
    hinv c₀ hc.1, hinv c₁ hc.2.1, hinv c₂ hc.2.2.1, hinv c₃ hc.2.2.2,
    hinv d₀ hd.1, hinv d₁ hd.2.1, hinv d₂ hd.2.2.1, hinv d₃ hd.2.2.2]

/-- `add_round_key` is an involution on 4x4 states. -/
theorem add_round_key_add_round_key {s : List (List Nat)} (hs : ValidState s)
    (rk : List Nat) : add_round_key (add_round_key s rk) rk = s := by
  obtain ⟨a₀, a₁, a₂, a₃, b₀, b₁, b₂, b₃, c₀, c₁, c₂, c₃, d₀, d₁, d₂, d₃, rfl, -, -, -, -⟩ :=
    valid_state_shape hs
  simp [add_round_key, bytes_to_state, xor_cancel_nat]

/-- `inv_mix_columns` undoes `mix_columns` on a valid state. -/
theorem inv_mix_columns_mix_columns {s : List (List Nat)} (hs : ValidState s) :
    inv_mix_columns (mix_columns s) = s := by
  obtain ⟨a₀, a₁, a₂, a₃, b₀, b₁, b₂, b₃, c₀, c₁, c₂, c₃, d₀, d₁, d₂, d₃, rfl, ha, hb, hc, hd⟩ :=
    valid_state_shape hs
  have h0 := inv_mix_mix_column a₀ b₀ c₀ d₀ ha.1 hb.1 hc.1 hd.1
  have h1 := inv_mix_mix_column a₁ b₁ c₁ d₁ ha.2.1 hb.2.1 hc.2.1 hd.2.1
  have h2 := inv_mix_mix_column a₂ b₂ c₂ d₂ ha.2.2.1 hb.2.2.1 hc.2.2.1 hd.2.2.1
  have h3 := inv_mix_mix_column a₃ b₃ c₃ d₃ ha.2.2.2 hb.2.2.2 hc.2.2.2 hd.2.2.2
  show cols_to_state (inv_mix_column (mix_column [a₀, b₀, c₀, d₀]))
      (inv_mix_column (mix_column [a₁, b₁, c₁, d₁]))
      (inv_mix_column (mix_column [a₂, b₂, c₂, d₂]))
      (inv_mix_column (mix_column [a₃, b₃, c₃, d₃])) = _
  rw [h0, h1, h2, h3]
  rfl

/-- `sub_bytes` keeps states valid when the table yields bytes. -/
theorem sub_bytes_valid {sb : List (List Nat)} {s : List (List Nat)} (hs : ValidState s)
    (hsb : ∀ x < 256, sbox_lookup sb x < 256) : ValidState (sub_bytes s sb) := by
  obtain ⟨a₀, a₁, a₂, a₃, b₀, b₁, b₂, b₃, c₀, c₁, c₂, c₃, d₀, d₁, d₂, d₃, rfl, ha, hb, hc, hd⟩ :=
    valid_state_shape hs
  simp only [sub_bytes, List.map_cons, List.map_nil]
  apply valid_state_mk <;> refine ⟨?_, ?_, ?_, ?_⟩ <;> apply hsb <;> omega

theorem shift_rows_valid {s : List (List Nat)} (hs : ValidState s) :
    ValidState (shift_rows s) := by
  obtain ⟨a₀, a₁, a₂, a₃, b₀, b₁, b₂, b₃, c₀, c₁, c₂, c₃, d₀, d₁, d₂, d₃, rfl, ha, hb, hc, hd⟩ :=
    valid_state_shape hs
  apply valid_state_mk <;> refine ⟨?_, ?_, ?_, ?_⟩ <;> omega

theorem mix_columns_valid {s : List (List Nat)} (hs : ValidState s) :
    ValidState (mix_columns s) := by
  obtain ⟨a₀, a₁, a₂, a₃, b₀, b₁, b₂, b₃, c₀, c₁, c₂, c₃, d₀, d₁, d₂, d₃, rfl, ha, hb, hc, hd⟩ :=
    valid_state_shape hs
  simp only [mix_columns, cols_to_state, get_col, stEntry, mix_column,
    List.getD_cons_zero, List.getD_cons_succ]
  apply valid_state_mk <;> refine ⟨?_, ?_, ?_, ?_⟩ <;> (repeat' apply xor_lt_256) <;>
    first
    | apply gf_multiply_lt
    | omega

theorem add_round_key_valid {s : List (List Nat)} (hs : ValidState s) {rk : List Nat}
    (hk : ∀ x ∈ rk, x < 256) : ValidState (add_round_key s rk) := by
  obtain ⟨a₀, a₁, a₂, a₃, b₀, b₁, b₂, b₃, c₀, c₁, c₂, c₃, d₀, d₁, d₂, d₃, rfl, ha, hb, hc, hd⟩ :=
    valid_state_shape hs
  apply valid_state_mk <;> refine ⟨?_, ?_, ?_, ?_⟩ <;> apply xor_lt_256 <;>
    first
    | omega
    | exact getD_lt_256 hk _

/-! ### The block cipher (`encrypt_block` / `decrypt_block`, aes.py 238-303) -/

/-- The loop `for round_num in range(1, 10)` of `encrypt_block`: each round is
SubBytes, ShiftRows, MixColumns, AddRoundKey, in that order. -/
def encrypt_rounds (sb : List (List Nat)) (rks : List (List Nat)) (n : Nat)
    (s : List (List Nat)) : List (List Nat) :=
  (List.range' 1 n).foldl
    (fun st r => add_round_key (mix_columns (shift_rows (sub_bytes st sb))) (rks.getD r [])) s

/-- The loop `for round_num in range(9, 0, -1)` of `decrypt_block`: each round
is InvShiftRows, InvSubBytes, AddRoundKey, InvMixColumns, in that order. -/
def decrypt_rounds (isb : List (List Nat)) (rks : List (List Nat)) (n : Nat)
    (s : List (List Nat)) : List (List Nat) :=
  ((List.range' 1 n).reverse).foldl
    (fun st r =>
      inv_mix_columns (add_round_key (inv_sub_bytes (inv_shift_rows st) isb) (rks.getD r []))) s

/-- `encrypt_block(plaintext, round_keys)`: length checks, initial
AddRoundKey, nine full rounds, and the final round without MixColumns. -/
def encrypt_block (sb : List (List Nat)) (plaintext : List Nat)
    (round_keys : List (List Nat)) : Except String (List Nat) :=
  if plaintext.length ≠ 16 then .error "Plaintext must be exactly 16 bytes"
  else if round_keys.length ≠ 11 then .error "Must provide exactly 11 round keys"
  else
    .ok (state_to_bytes (add_round_key
      (shift_rows (sub_bytes (encrypt_rounds sb round_keys 9
        (add_round_key (bytes_to_state plaintext) (round_keys.getD 0 []))) sb))
      (round_keys.getD 10 [])))

/-- `decrypt_block(ciphertext, round_keys)`: length checks, AddRoundKey with
the last round key, nine inverse rounds, and the final inverse round without
InvMixColumns. -/
def decrypt_block (isb : List (List Nat)) (ciphertext : List Nat)
    (round_keys : List (List Nat)) : Except String (List Nat) :=
  if ciphertext.length ≠ 16 then .error "Ciphertext must be exactly 16 bytes"
  else if round_keys.length ≠ 11 then .error "Must provide exactly 11 round keys"
  else
    .ok (state_to_bytes (add_round_key
      (inv_sub_bytes (inv_shift_rows (decrypt_rounds isb round_keys 9
        (add_round_key (bytes_to_state ciphertext) (round_keys.getD 10 [])))) isb)
      (round_keys.getD 0 [])))

theorem encrypt_rounds_succ (sb rks : List (List Nat)) (n : Nat) (s : List (List Nat)) :
    encrypt_rounds sb rks (n+1) s =
      add_round_key (mix_columns (shift_rows (sub_bytes (encrypt_rounds sb rks n s) sb)))
        (rks.getD (1+n) []) := by
  unfold encrypt_rounds
  rw [List.range'_concat, List.foldl_append]
  simp

theorem decrypt_rounds_succ (isb rks : List (List Nat)) (n : Nat) (s : List (List Nat)) :
    decrypt_rounds isb rks (n+1) s =
      decrypt_rounds isb rks n
        (inv_mix_columns (add_round_key (inv_sub_bytes (inv_shift_rows s) isb)
          (rks.getD (1+n) []))) := by
  unfold decrypt_rounds
  rw [List.range'_concat, List.reverse_append]
  simp

theorem getD_mem_bound {rks : List (List Nat)} (h : ∀ rk ∈ rks, ∀ x ∈ rk, x < 256)
    (r : Nat) : ∀ x ∈ rks.getD r [], x < 256 := by
  by_cases hr : r < rks.length
  · rw [List.getD_eq_getElem _ _ hr]
    exact h _ (List.getElem_mem hr)
  · rw [List.getD_eq_default]
    · simp
    · omega

theorem encrypt_rounds_valid {sb rks : List (List Nat)}
    (hsb : ∀ x < 256, sbox_lookup sb x < 256)
    (hrkB : ∀ rk ∈ rks, ∀ x ∈ rk, x < 256) :
    ∀ (n : Nat) (s : List (List Nat)), ValidState s → ValidState (encrypt_rounds sb rks n s) := by
  intro n
  induction n with
  | zero => intro s hs; exact hs
  | succ n ih =>
    intro s hs
    rw [encrypt_rounds_succ]
    exact add_round_key_valid
      (mix_columns_valid (shift_rows_valid (sub_bytes_valid (ih s hs) hsb)))
      (getD_mem_bound hrkB _)

/-- Each decryption round undoes the matching encryption round: running the
`n` inverse rounds after the `n` forward rounds (as seen through the trailing
SubBytes–ShiftRows of the final round) is the identity. -/
theorem decrypt_rounds_encrypt_rounds {sb isb rks : List (List Nat)}
    (hsb : ∀ x < 256, sbox_lookup sb x < 256)
    (hinv : ∀ x < 256, sbox_lookup isb (sbox_lookup sb x) = x)
    (hrkB : ∀ rk ∈ rks, ∀ x ∈ rk, x < 256) :
    ∀ (n : Nat) (s : List (List Nat)), ValidState s →
      decrypt_rounds isb rks n (shift_rows (sub_bytes (encrypt_rounds sb rks n s) sb)) =
        shift_rows (sub_bytes s sb) := by
  intro n
  induction n with
  | zero => intro s hs; rfl
  | succ n ih =>
    intro s hs
    have hv : ValidState (encrypt_rounds sb rks n s) := encrypt_rounds_valid hsb hrkB n s hs
    have v1 : ValidState (sub_bytes (encrypt_rounds sb rks n s) sb) := sub_bytes_valid hv hsb
    have v2 : ValidState (shift_rows (sub_bytes (encrypt_rounds sb rks n s) sb)) :=
      shift_rows_valid v1
    have v3 : ValidState (mix_columns (shift_rows (sub_bytes (encrypt_rounds sb rks n s) sb))) :=
      mix_columns_valid v2
    have v4 : ValidState (add_round_key
        (mix_columns (shift_rows (sub_bytes (encrypt_rounds sb rks n s) sb)))
        (rks.getD (1+n) [])) :=
      add_round_key_valid v3 (getD_mem_bound hrkB _)
    have v5 : ValidState (sub_bytes (add_round_key
        (mix_columns (shift_rows (sub_bytes (encrypt_rounds sb rks n s) sb)))
        (rks.getD (1+n) [])) sb) :=
      sub_bytes_valid v4 hsb
    rw [encrypt_rounds_succ, decrypt_rounds_succ,
      inv_shift_rows_shift_rows v5, inv_sub_bytes_sub_bytes v4 hinv,
      add_round_key_add_round_key v3, inv_mix_columns_mix_columns v2]
    exact ih s hs

theorem bytes_to_state_state_to_bytes {s : List (List Nat)} (hs : ValidState s) :
    bytes_to_state (state_to_bytes s) = s := by
  obtain ⟨a₀, a₁, a₂, a₃, b₀, b₁, b₂, b₃, c₀, c₁, c₂, c₃, d₀, d₁, d₂, d₃, rfl, -, -, -, -⟩ :=
    valid_state_shape hs
  rfl

theorem list_len16_shape {α : Type} {l : List α} (h : l.length = 16) :
    ∃ x₀ x₁ x₂ x₃ x₄ x₅ x₆ x₇ x₈ x₉ x₁₀ x₁₁ x₁₂ x₁₃ x₁₄ x₁₅,
      l = [x₀, x₁, x₂, x₃, x₄, x₅, x₆, x₇, x₈, x₉, x₁₀, x₁₁, x₁₂, x₁₃, x₁₄, x₁₅] := by
  obtain ⟨x₀, t1, rfl, h1⟩ := list_cons_of_length_succ h
  obtain ⟨x₁, t2, rfl, h2⟩ := list_cons_of_length_succ h1
  obtain ⟨x₂, t3, rfl, h3⟩ := list_cons_of_length_succ h2
  obtain ⟨x₃, t4, rfl, h4⟩ := list_cons_of_length_succ h3
  obtain ⟨x₄, t5, rfl, h5⟩ := list_cons_of_length_succ h4
  obtain ⟨x₅, t6, rfl, h6⟩ := list_cons_of_length_succ h5
  obtain ⟨x₆, t7, rfl, h7⟩ := list_cons_of_length_succ h6
  obtain ⟨x₇, t8, rfl, h8⟩ := list_cons_of_length_succ h7
  obtain ⟨x₈, t9, rfl, h9⟩ := list_cons_of_length_succ h8
  obtain ⟨x₉, t10, rfl, h10⟩ := list_cons_of_length_succ h9
  obtain ⟨x₁₀, t11, rfl, h11⟩ := list_cons_of_length_succ h10
  obtain ⟨x₁₁, t12, rfl, h12⟩ := list_cons_of_length_succ h11
  obtain ⟨x₁₂, t13, rfl, h13⟩ := list_cons_of_length_succ h12
  obtain ⟨x₁₃, t14, rfl, h14⟩ := list_cons_of_length_succ h13
  obtain ⟨x₁₄, t15, rfl, h15⟩ := list_cons_of_length_succ h14
  obtain ⟨x₁₅, t16, rfl, h16⟩ := list_cons_of_length_succ h15
  rw [List.length_eq_zero.mp h16]
  exact ⟨x₀, x₁, x₂, x₃, x₄, x₅, x₆, x₇, x₈, x₉, x₁₀, x₁₁, x₁₂, x₁₃, x₁₄, x₁₅, rfl⟩

theorem state_to_bytes_bytes_to_state {b : List Nat} (hb : b.length = 16) :
    state_to_bytes (bytes_to_state b) = b := by
  obtain ⟨x₀, x₁, x₂, x₃, x₄, x₅, x₆, x₇, x₈, x₉, x₁₀, x₁₁, x₁₂, x₁₃, x₁₄, x₁₅, rfl⟩ :=
    list_len16_shape hb
  rfl

theorem bytes_to_state_valid {b : List Nat} (hb : ∀ x ∈ b, x < 256) :
    ValidState (bytes_to_state b) := by
  apply valid_state_mk <;> refine ⟨?_, ?_, ?_, ?_⟩ <;> exact getD_lt_256 hb _

/-! ### Key expansion (`key_expansion`, aes.py lines 113-183) -/

/-- `rot_word`: `(b0, b1, b2, b3) -> (b1, b2, b3, b0)`. -/
def rot_word (word : List Nat) : List Nat := word.drop 1 ++ word.take 1

/-- `sub_word`: apply the S-box to each byte of a 4-byte word. -/
def sub_word (sb : List (List Nat)) (word : List Nat) : List Nat :=
  word.map (sbox_lookup sb)

/-- The precomputed round constants of `rcon`. -/
def rcon_values : List Nat := [0x01, 0x02, 0x04, 0x08, 0x10, 0x20, 0x40, 0x80, 0x1b, 0x36]

/-- `rcon(i)`: the round-constant word, or the invalid-range error for an
index outside 1..10. -/
def rcon (i : Nat) : Except String (List Nat) :=
  if i < 1 ∨ i > 10 then .error "Round constant index must be between 1 and 10"
  else .ok [rcon_values.getD (i - 1) 0, 0x00, 0x00, 0x00]

/-- The word appended by one iteration of the `for i in range(4, 44)` loop of
`key_expansion`, when `rcon` succeeds: `temp = w[i-1]`, transformed by
RotWord/SubWord/Rcon when `i % 4 == 0`, then XORed into `w[i-4]`
(here `i = w.length`, the index of the word being created). -/
def key_expansion_step (sb : List (List Nat)) (w : List (List Nat)) : List Nat :=
  xor_bytes (w.getD (w.length - 4) [])
    (if w.length % 4 = 0 then
      xor_bytes (sub_word sb (rot_word (w.getD (w.length - 1) [])))
        [rcon_values.getD (w.length / 4 - 1) 0, 0x00, 0x00, 0x00]
    else w.getD (w.length - 1) [])

/-- The word recurrence of the key schedule, read off a finished word list:
`w[i] = w[i-4] XOR temp` with `temp` derived from `w[i-1]`. -/
def word_formula (sb : List (List Nat)) (w : List (List Nat)) (i : Nat) : List Nat :=
  xor_bytes (w.getD (i - 4) [])
    (if i % 4 = 0 then
      xor_bytes (sub_word sb (rot_word (w.getD (i - 1) [])))
        [rcon_values.getD (i / 4 - 1) 0, 0x00, 0x00, 0x00]
    else w.getD (i - 1) [])

/-- The `for i in range(4, 44)` loop of `key_expansion`, with the remaining
iteration count explicit; a `rcon` exception aborts the whole loop. -/
def key_expansion_loop (sb : List (List Nat)) : Nat → List (List Nat) →
    Except String (List (List Nat))
  | 0, w => .ok w
  | n+1, w =>
      let tempE : Except String (List Nat) :=
        if w.length % 4 = 0 then
          match rcon (w.length / 4) with
          | .error e => .error e
          | .ok rc => .ok (xor_bytes (sub_word sb (rot_word (w.getD (w.length - 1) []))) rc)
        else .ok (w.getD (w.length - 1) [])
      match tempE with
      | .error e => .error e
      | .ok temp => key_expansion_loop sb n (w ++ [xor_bytes (w.getD (w.length - 4) []) temp])

/-- The 44-entry word array `w` of `key_expansion`: words 0-3 are the raw key
split into 4-byte chunks, then 40 loop iterations. -/
def key_expansion_words (sb : List (List Nat)) (key : List Nat) :
    Except String (List (List Nat)) :=
  key_expansion_loop sb 40 ((List.range 4).map (fun i => (key.drop (i * 4)).take 4))

/-- `key_expansion(key)`: the length check, the word array, and the grouping
of every 4 consecutive words into a round key. -/
def key_expansion (sb : List (List Nat)) (key : List Nat) :
    Except String (List (List Nat)) :=
  if key.length ≠ 16 then .error "Key must be exactly 16 bytes (128 bits)"
  else
    match key_expansion_words sb key with
    | .error e => .error e
    | .ok w => .ok ((List.range 11).map (fun rn => ((w.drop (rn * 4)).take 4).flatten))

/-- A well-formed key-schedule word: 4 bytes. -/
def WfWord (word : List Nat) : Prop := word.length = 4 ∧ ∀ x ∈ word, x < 256

theorem xor_bytes_wf {u v : List Nat} (hu : WfWord u) (hv : WfWord v) :
    WfWord (xor_bytes u v) := by
  obtain ⟨a, b, c, d, rfl⟩ := list_len4_shape hu.1
  obtain ⟨e, f, g, h, rfl⟩ := list_len4_shape hv.1
  have hua := hu.2
  have hva := hv.2
  refine ⟨rfl, ?_⟩
  intro x hx
  simp only [xor_bytes, List.zipWith_cons_cons, List.zipWith_nil_right, List.mem_cons,
    List.not_mem_nil, or_false] at hx
  rcases hx with rfl | rfl | rfl | rfl <;>
    exact xor_lt_256 (hua _ (by simp)) (hva _ (by simp))

theorem rot_word_wf {u : List Nat} (hu : WfWord u) : WfWord (rot_word u) := by
  obtain ⟨a, b, c, d, rfl⟩ := list_len4_shape hu.1
  have h := hu.2
  refine ⟨rfl, ?_⟩
  intro x hx
  simp only [rot_word, List.drop, List.take, List.cons_append, List.nil_append,
    List.mem_cons, List.not_mem_nil, or_false] at hx
  rcases hx with rfl | rfl | rfl | rfl <;> exact h _ (by simp)

theorem sub_word_wf {sb : List (List Nat)} {u : List Nat}
    (hsb : ∀ x < 256, sbox_lookup sb x < 256) (hu : WfWord u) : WfWord (sub_word sb u) := by
  obtain ⟨a, b, c, d, rfl⟩ := list_len4_shape hu.1
  have h := hu.2
  refine ⟨rfl, ?_⟩
  intro x hx
  simp only [sub_word, List.map_cons, List.map_nil, List.mem_cons, List.not_mem_nil,
    or_false] at hx
  rcases hx with rfl | rfl | rfl | rfl <;> exact hsb _ (h _ (by simp))

theorem rcon_word_wf (k : Nat) : WfWord [rcon_values.getD k 0, 0x00, 0x00, 0x00] := by
  refine ⟨rfl, ?_⟩
  intro x hx
  simp only [List.mem_cons, List.not_mem_nil, or_false] at hx
  rcases hx with rfl | rfl | rfl | rfl
  · exact getD_lt_256 (by decide) k
  all_goals norm_num

theorem getD_wf {w : List (List Nat)} (hw : ∀ word ∈ w, WfWord word) {i : Nat}
    (hi : i < w.length) : WfWord (w.getD i []) := by
  rw [List.getD_eq_getElem _ _ hi]
  exact hw _ (List.getElem_mem hi)

theorem key_expansion_step_wf {sb : List (List Nat)} {w : List (List Nat)}
    (hsb : ∀ x < 256, sbox_lookup sb x < 256)
    (hw : ∀ word ∈ w, WfWord word) (h4 : 4 ≤ w.length) :
    WfWord (key_expansion_step sb w) := by
  have h1 : WfWord (w.getD (w.length - 1) []) := getD_wf hw (by omega)
  have h4' : WfWord (w.getD (w.length - 4) []) := getD_wf hw (by omega)
  unfold key_expansion_step
  by_cases hm : w.length % 4 = 0
  · rw [if_pos hm]
    exact xor_bytes_wf h4' (xor_bytes_wf (sub_word_wf hsb (rot_word_wf h1)) (rcon_word_wf _))
  · rw [if_neg hm]
    exact xor_bytes_wf h4' h1

theorem getD_append_left {α : Type} (l₁ l₂ : List α) (n : Nat) (d : α) (h : n < l₁.length) :
    (l₁ ++ l₂).getD n d = l₁.getD n d := by
  rw [List.getD_eq_getElem _ _ (by simp; omega), List.getD_eq_getElem _ _ h]
  exact List.getElem_append_left h

theorem getD_concat_length {α : Type} (l : List α) (x d : α) :
    (l ++ [x]).getD l.length d = x := by
  rw [List.getD_eq_getElem _ _ (by simp)]
  exact List.getElem_concat_length l x l.length rfl (by simp)

/-- Running the key-expansion loop from a well-formed prefix of at least 4
words never fails while the total stays within 44 words; it appends one word
per iteration, keeps the existing words, and every appended word satisfies
the AES word recurrence read off the final list. -/
theorem key_expansion_loop_spec {sb : List (List Nat)}
    (hsb : ∀ x < 256, sbox_lookup sb x < 256) :
    ∀ (n : Nat) (w : List (List Nat)), 4 ≤ w.length → w.length + n ≤ 44 →
      (∀ word ∈ w, WfWord word) →
      ∃ w', key_expansion_loop sb n w = Except.ok w' ∧
        w'.length = w.length + n ∧
        (∀ j, j < w.length → w'.getD j [] = w.getD j []) ∧
        (∀ i, w.length ≤ i → i < w.length + n → w'.getD i [] = word_formula sb w' i) ∧
        (∀ word ∈ w', WfWord word) := by
  intro n
  induction n with
  | zero =>
    intro w h4 h44 hwf
    exact ⟨w, rfl, by omega, fun j hj => rfl, fun i h1 h2 => by omega, hwf⟩
  | succ n ih =>
    intro w h4 h44 hwf
    have hswf : WfWord (key_expansion_step sb w) := key_expansion_step_wf hsb hwf h4
    have hwf' : ∀ word ∈ w ++ [key_expansion_step sb w], WfWord word := by
      intro word hword
      rcases List.mem_append.mp hword with h | h
      · exact hwf _ h
      · rw [List.mem_singleton.mp h]; exact hswf
    have hrcon : rcon (w.length / 4) =
        Except.ok [rcon_values.getD (w.length / 4 - 1) 0, 0x00, 0x00, 0x00] := by
      unfold rcon
      rw [if_neg]
      omega
    have hstep : key_expansion_loop sb (n+1) w =
        key_expansion_loop sb n (w ++ [key_expansion_step sb w]) := by
      by_cases hm : w.length % 4 = 0
      · simp only [key_expansion_loop, key_expansion_step, if_pos hm, hrcon]
      · simp only [key_expansion_loop, key_expansion_step, if_neg hm]
    rw [hstep]
    obtain ⟨w', hok, hlen, hpre, hrec, hwfout⟩ :=
      ih (w ++ [key_expansion_step sb w]) (by simp; omega) (by simp; omega) hwf'
    have hlen' : w'.length = w.length + (n+1) := by
      simp only [List.length_append, List.length_cons, List.length_nil] at hlen
      omega
    have hpre' : ∀ j, j < w.length → w'.getD j [] = w.getD j [] := by
      intro j hj
      rw [hpre j (by simp; omega)]
      exact getD_append_left _ _ _ _ hj
    refine ⟨w', hok, hlen', hpre', ?_, hwfout⟩
    intro i h1 h2
    rcases Nat.eq_or_lt_of_le h1 with heq | hlt
    · subst heq
      have hgetI : w'.getD w.length [] = key_expansion_step sb w := by
        rw [hpre w.length (by simp)]
        exact getD_concat_length _ _ _
      have e1 : w'.getD (w.length - 1) [] = w.getD (w.length - 1) [] := hpre' _ (by omega)
      have e4 : w'.getD (w.length - 4) [] = w.getD (w.length - 4) [] := hpre' _ (by omega)
      rw [hgetI]
      unfold word_formula key_expansion_step
      rw [e1, e4]
    · exact hrec i (by simp; omega) (by omega)

/-- The word array of `key_expansion` on a 16-byte key: 44 words, words 0-3
are the key's 4-byte chunks, the rest follow the recurrence, and all words
are 4 bytes. -/
theorem key_expansion_words_spec {sb : List (List Nat)} {key : List Nat}
    (hsb : ∀ x < 256, sbox_lookup sb x < 256) (hk : key.length = 16)
    (hkB : ∀ x ∈ key, x < 256) :
    ∃ w, key_expansion_words sb key = Except.ok w ∧ w.length = 44 ∧
      (∀ j, j < 4 → w.getD j [] = (key.drop (j * 4)).take 4) ∧
      (∀ i, 4 ≤ i → i < 44 → w.getD i [] = word_formula sb w i) ∧
      (∀ word ∈ w, WfWord word) := by
  have hlen0 : ((List.range 4).map (fun i => (key.drop (i * 4)).take 4)).length = 4 := by
    simp
  have hwf0 : ∀ word ∈ (List.range 4).map (fun i => (key.drop (i * 4)).take 4),
      WfWord word := by
    intro word hword
    obtain ⟨i, hi, rfl⟩ := List.mem_map.mp hword
    have hi4 : i < 4 := List.mem_range.mp hi
    constructor
    · simp only [List.length_take, List.length_drop, hk]
      omega
    · intro x hx
      exact hkB x (List.mem_of_mem_drop (List.mem_of_mem_take hx))
  obtain ⟨w, hok, hlen, hpre, hrec, hwf⟩ :=
    key_expansion_loop_spec hsb 40 _ (by simp) (by simp) hwf0
  rw [hlen0] at hlen
  refine ⟨w, hok, by omega, ?_, ?_, hwf⟩
  · intro j hj
    rw [hpre j (by rw [hlen0]; omega)]
    interval_cases j <;> rfl
  · intro i h4 h44
    exact hrec i (by rw [hlen0]; omega) (by rw [hlen0]; omega)

/-- On a 16-byte key, `key_expansion` succeeds and yields 11 round keys of
16 bytes each. -/
theorem key_expansion_ok {sb : List (List Nat)} {key : List Nat}
    (hsb : ∀ x < 256, sbox_lookup sb x < 256) (hk : key.length = 16)
    (hkB : ∀ x ∈ key, x < 256) :
    ∃ rks, key_expansion sb key = Except.ok rks ∧ rks.length = 11 ∧
      (∀ rk ∈ rks, rk.length = 16 ∧ ∀ x ∈ rk, x < 256) := by
  obtain ⟨w, hok, hlen, hpre, hrec, hwf⟩ := key_expansion_words_spec hsb hk hkB
  refine ⟨(List.range 11).map (fun rn => ((w.drop (rn * 4)).take 4).flatten), ?_, by simp, ?_⟩
  · unfold key_expansion
    rw [if_neg (by omega), hok]
  · intro rk hrk
    obtain ⟨rn, hrn, rfl⟩ := List.mem_map.mp hrk
    have hrn11 : rn < 11 := List.mem_range.mp hrn
    have htlen : ((w.drop (rn * 4)).take 4).length = 4 := by
      simp only [List.length_take, List.length_drop, hlen]
      omega
    obtain ⟨w1, w2, w3, w4, hw4⟩ := list_len4_shape htlen
    have hmem : ∀ word ∈ (w.drop (rn * 4)).take 4, WfWord word := by
      intro word hword
      exact hwf _ (List.mem_of_mem_drop (List.mem_of_mem_take hword))
    have h1 : WfWord w1 := hmem _ (by rw [hw4]; simp)
    have h2 : WfWord w2 := hmem _ (by rw [hw4]; simp)
    have h3 : WfWord w3 := hmem _ (by rw [hw4]; simp)
    have h4 : WfWord w4 := hmem _ (by rw [hw4]; simp)
    rw [hw4]
    constructor
    · simp only [List.flatten_cons, List.flatten_nil, List.length_append, List.length_nil,
        h1.1, h2.1, h3.1, h4.1]
    · intro x hx
      simp only [List.flatten_cons, List.flatten_nil, List.append_nil, List.mem_append] at hx
      rcases hx with h | h | h | h
      exacts [h1.2 x h, h2.2 x h, h3.2 x h, h4.2 x h]

/-- `aes_encrypt_wrapper(block, key)`: key length check, key expansion, then
block encryption. -/
def aes_encrypt_wrapper (sb : List (List Nat)) (block key : List Nat) :
    Except String (List Nat) :=
  if key.length ≠ 16 then .error "Key must be exactly 16 bytes (128 bits)"
  else
    match key_expansion sb key with
    | .error e => .error e
    | .ok rks => encrypt_block sb block rks

/-- `aes_decrypt_wrapper(block, key)`: key length check, key expansion
(which uses the forward S-box), then block decryption. -/
def aes_decrypt_wrapper (sb isb : List (List Nat)) (block key : List Nat) :
    Except String (List Nat) :=
  if key.length ≠ 16 then .error "Key must be exactly 16 bytes (128 bits)"
  else
    match key_expansion sb key with
    | .error e => .error e
    | .ok rks => decrypt_block isb block rks

/-! ### Modes of operation (`operation_modes.py`) -/

/-- Zero padding to a block-size multiple:
`padding_length = (block_size - len(plain_text) % block_size) % block_size`. -/
def zero_pad (block_size : Nat) (plain_text : List Nat) : List Nat :=
  plain_text ++ List.replicate ((block_size - plain_text.length % block_size) % block_size) 0

/-- `.rstrip(b'\x00')`: remove all trailing zero bytes. -/
def rstrip_zeros (xs : List Nat) : List Nat :=
  ((xs.reverse).dropWhile (fun b => b == 0)).reverse

/-- The per-block loop shared by `mode_ecb_encrypt` and `mode_ecb_decrypt`:
apply the block operation to each `block_size`-sized chunk and concatenate. -/
def ecb_loop (block_size : Nat) (hbs : 0 < block_size)
    (op : List Nat → List Nat → List Nat) (key : List Nat) (xs : List Nat) : List Nat :=
  if h : xs = [] then [] else
    op (xs.take block_size) key ++ ecb_loop block_size hbs op key (xs.drop block_size)
termination_by xs.length
decreasing_by
  simp only [List.length_drop]
  have hl : 0 < xs.length := List.length_pos.mpr h
  omega

/-- `mode_ecb_encrypt`: zero-pad, then encrypt each block independently. -/
def mode_ecb_encrypt (block_size : Nat) (hbs : 0 < block_size)
    (op : List Nat → List Nat → List Nat) (plain_text key : List Nat) : List Nat :=
  ecb_loop block_size hbs op key (zero_pad block_size plain_text)

/-- `mode_ecb_decrypt`: decrypt each block, then strip trailing zero bytes. -/
def mode_ecb_decrypt (block_size : Nat) (hbs : 0 < block_size)
    (op : List Nat → List Nat → List Nat) (cipher_text key : List Nat) : List Nat :=
  rstrip_zeros (ecb_loop block_size hbs op key cipher_text)

/-- The chaining loop of `mode_cbc_encrypt`: XOR the plaintext block into the
previous ciphertext block (initially the IV), encrypt, and chain. -/
def cbc_encrypt_loop (block_size : Nat) (hbs : 0 < block_size)
    (op : List Nat → List Nat → List Nat) (key prev xs : List Nat) : List Nat :=
  if h : xs = [] then [] else
    op (xor_bytes (xs.take block_size) prev) key ++
      cbc_encrypt_loop block_size hbs op key (op (xor_bytes (xs.take block_size) prev) key)
        (xs.drop block_size)
termination_by xs.length
decreasing_by
  simp only [List.length_drop]
  have hl : 0 < xs.length := List.length_pos.mpr h
  omega

/-- `mode_cbc_encrypt`: IV length check, zero padding, then the chained
encryption loop. -/
def mode_cbc_encrypt (block_size : Nat) (hbs : 0 < block_size)
    (op : List Nat → List Nat → List Nat) (plain_text key iv : List Nat) :
    Except String (List Nat) :=
  if block_size ≠ iv.length then .error "Initialization vector must match block size."
  else .ok (cbc_encrypt_loop block_size hbs op key iv (zero_pad block_size plain_text))

/-- The chaining loop of `mode_cbc_decrypt`: decrypt the ciphertext block,
XOR with the previous ciphertext block (initially the IV), and chain on the
raw ciphertext block. -/
def cbc_decrypt_loop (block_size : Nat) (hbs : 0 < block_size)
    (op : List Nat → List Nat → List Nat) (key prev xs : List Nat) : List Nat :=
  if h : xs = [] then [] else
    xor_bytes (op (xs.take block_size) key) prev ++
      cbc_decrypt_loop block_size hbs op key (xs.take block_size) (xs.drop block_size)
termination_by xs.length
decreasing_by
  simp only [List.length_drop]
  have hl : 0 < xs.length := List.length_pos.mpr h
  omega

/-- `mode_cbc_decrypt`: IV length check, the chained decryption loop, then
stripping of trailing zero bytes. -/
def mode_cbc_decrypt (block_size : Nat) (hbs : 0 < block_size)
    (op : List Nat → List Nat → List Nat) (cipher_text key iv : List Nat) :
    Except String (List Nat) :=
  if block_size ≠ iv.length then .error "Initialization vector must match block size."
  else .ok (rstrip_zeros (cbc_decrypt_loop block_size hbs op key iv cipher_text))

/-- The keystream loop of `mode_ofb`: feed the previous keystream block
(initially the IV) through the block operation and XOR with the next chunk;
`zip` truncates the last chunk. -/
def ofb_loop (block_size : Nat) (hbs : 0 < block_size)
    (op : List Nat → List Nat → List Nat) (key prev xs : List Nat) : List Nat :=
  if h : xs = [] then [] else
    xor_bytes (xs.take block_size) (op prev key) ++
      ofb_loop block_size hbs op key (op prev key) (xs.drop block_size)
termination_by xs.length
decreasing_by
  simp only [List.length_drop]
  have hl : 0 < xs.length := List.length_pos.mpr h
  omega

/-- `mode_ofb`: no input validation; run the keystream loop started on the
IV over the whole plaintext. -/
def mode_ofb (block_size : Nat) (hbs : 0 < block_size)
    (op : List Nat → List Nat → List Nat) (plain_text key iv : List Nat) : List Nat :=
  ofb_loop block_size hbs op key iv plain_text

/-- `int.from_bytes(xs, 'big')`. -/
def from_bytes_be (xs : List Nat) : Nat := xs.foldl (fun acc b => acc * 256 + b) 0

/-- `n.to_bytes(len, 'big')` for `n < 256^len`. -/
def to_bytes_be (len n : Nat) : List Nat :=
  (List.range len).map (fun j => n / 256 ^ (len - 1 - j) % 256)

/-- Block `i` (0-indexed) of `mode_ctr`: plaintext chunk `i` XORed with the
encrypted counter `(ctr + i) mod 2^(block_size*8)`; the source's loop runs
`i` from 1 with counter `ctr + i - 1`, which is the same sequence. -/
def ctr_block (block_size : Nat) (op : List Nat → List Nat → List Nat)
    (key plain_text : List Nat) (ctr i : Nat) : List Nat :=
  xor_bytes ((plain_text.drop (i * block_size)).take block_size)
    (op (to_bytes_be block_size ((ctr + i) % 2 ^ (block_size * 8))) key)

/-- `mode_ctr`: nonce length check, counter initialised from the nonce
zero-extended to the block size, one keystream block per plaintext block. -/
def mode_ctr (block_size : Nat) (op : List Nat → List Nat → List Nat)
    (plain_text key nonce : List Nat) : Except String (List Nat) :=
  if nonce.length > block_size then .error "Nonce cannot be longer than block size."
  else
    .ok (((List.range ((plain_text.length + block_size - 1) / block_size)).map
      (ctr_block block_size op key plain_text
        (from_bytes_be (nonce ++ List.replicate (block_size - nonce.length) 0)))).flatten)

/-! ### Mode-of-operation lemmas -/

theorem xor_bytes_cancel : ∀ (u p : List Nat), u.length ≤ p.length →
    xor_bytes (xor_bytes u p) p = u := by
  intro u
  induction u with
  | nil => intro p h; simp [xor_bytes]
  | cons x u ih =>
    intro p h
    cases p with
    | nil => simp at h
    | cons y p =>
      simp only [xor_bytes, List.zipWith_cons_cons, xor_cancel_nat, List.cons.injEq, true_and]
      exact ih p (by simp at h; omega)

theorem xor_bytes_length (u v : List Nat) :
    (xor_bytes u v).length = min u.length v.length := by
  simp [xor_bytes]

theorem zero_pad_length (bs : Nat) (pt : List Nat) :
    (zero_pad bs pt).length = pt.length + (bs - pt.length % bs) % bs := by
  simp [zero_pad]

theorem zero_pad_dvd {bs : Nat} (hbs : 0 < bs) (pt : List Nat) :
    bs ∣ (zero_pad bs pt).length := by
  rw [zero_pad_length]
  by_cases hr : pt.length % bs = 0
  · rw [hr, Nat.sub_zero, Nat.mod_self, Nat.add_zero]
    exact Nat.dvd_of_mod_eq_zero hr
  · have h1 : pt.length % bs < bs := Nat.mod_lt _ hbs
    have h2 : (bs - pt.length % bs) % bs = bs - pt.length % bs := Nat.mod_eq_of_lt (by omega)
    rw [h2]
    apply Nat.dvd_of_mod_eq_zero
    have h3 : pt.length + (bs - pt.length % bs) = bs * (pt.length / bs) + bs := by
      have := Nat.div_add_mod pt.length bs
      omega
    rw [h3, show bs * (pt.length / bs) + bs = bs * (pt.length / bs + 1) from by ring]
    exact Nat.mul_mod_right bs _

theorem mod_eq_zero_of_dvd {bs n : Nat} (h : bs ∣ n) : n % bs = 0 := by
  obtain ⟨k, rfl⟩ := h
  exact Nat.mul_mod_right bs k

theorem zero_pad_of_dvd {bs : Nat} {pt : List Nat} (h : bs ∣ pt.length) :
    zero_pad bs pt = pt := by
  unfold zero_pad
  rw [mod_eq_zero_of_dvd h, Nat.sub_zero, Nat.mod_self]
  simp

/-- The CBC decryption loop undoes the CBC encryption loop on block-aligned
input, for any block operation pair that is inverse and length-preserving. -/
theorem cbc_loop_roundtrip {bs : Nat} (hbs : 0 < bs)
    {op_e op_d : List Nat → List Nat → List Nat} {key : List Nat}
    (hinv : ∀ b, b.length = bs → op_d (op_e b key) key = b)
    (hlen : ∀ b, b.length = bs → (op_e b key).length = bs) :
    ∀ (k : Nat) (xs prev : List Nat), xs.length = bs * k → prev.length = bs →
      cbc_decrypt_loop bs hbs op_d key prev (cbc_encrypt_loop bs hbs op_e key prev xs) = xs := by
  intro k
  induction k with
  | zero =>
    intro xs prev h0 hp
    have hx : xs = [] := List.length_eq_zero.mp (by omega)
    subst hx
    simp [cbc_encrypt_loop, cbc_decrypt_loop]
  | succ k ih =>
    intro xs prev hk hp
    have hxs : xs ≠ [] := by
      intro h
      subst h
      simp only [List.length_nil] at hk
      have hpos : 0 < bs * (k + 1) := Nat.mul_pos hbs (by omega)
      omega
    have hge : bs ≤ xs.length := by
      rw [hk, Nat.mul_succ]
      omega
    have htake : (xs.take bs).length = bs := by
      simp only [List.length_take]
      omega
    have hxor : (xor_bytes (xs.take bs) prev).length = bs := by
      rw [xor_bytes_length, htake, hp]
      simp
    have hc : (op_e (xor_bytes (xs.take bs) prev) key).length = bs := hlen _ hxor
    rw [cbc_encrypt_loop, dif_neg hxs]
    have hcne : op_e (xor_bytes (xs.take bs) prev) key ++
        cbc_encrypt_loop bs hbs op_e key (op_e (xor_bytes (xs.take bs) prev) key)
          (xs.drop bs) ≠ [] := by
      intro h
      have hlc := congrArg List.length h
      simp only [List.length_append, List.length_nil, hc] at hlc
      omega
    rw [cbc_decrypt_loop, dif_neg hcne]
    rw [List.take_left' hc, List.drop_left' hc, hinv _ hxor,
      xor_bytes_cancel _ _ (by omega),
      ih (xs.drop bs) _ (by simp only [List.length_drop]; rw [hk, Nat.mul_succ]; omega) hc,
      List.take_append_drop]

theorem ofb_loop_length {bs : Nat} (hbs : 0 < bs) {op : List Nat → List Nat → List Nat}
    {key : List Nat} (hop : ∀ b k, (op b k).length = bs) :
    ∀ (k : Nat) (xs prev : List Nat), xs.length ≤ k →
      (ofb_loop bs hbs op key prev xs).length = xs.length := by
  intro k
  induction k with
  | zero =>
    intro xs prev h
    have hx : xs = [] := List.length_eq_zero.mp (by omega)
    subst hx
    simp [ofb_loop]
  | succ k ih =>
    intro xs prev h
    by_cases hx : xs = []
    · subst hx; simp [ofb_loop]
    · rw [ofb_loop, dif_neg hx]
      have hlp : 0 < xs.length := List.length_pos.mpr hx
      rw [List.length_append, xor_bytes_length, hop,
        ih (xs.drop bs) _ (by simp only [List.length_drop]; omega)]
      simp only [List.length_take, List.length_drop]
      omega

theorem ctr_block_shift (bs : Nat) (op : List Nat → List Nat → List Nat)
    (key pt : List Nat) (ctr i : Nat) :
    ctr_block bs op key pt ctr (i + 1) = ctr_block bs op key (pt.drop bs) (ctr + 1) i := by
  unfold ctr_block
  rw [List.drop_drop, show bs + i * bs = (i + 1) * bs from by ring,
    show ctr + 1 + i = ctr + (i + 1) from by omega]

theorem ctr_count_succ {bs : Nat} (hbs : 0 < bs) {pt : List Nat} (hpt : pt ≠ []) :
    (pt.length + bs - 1) / bs = ((pt.drop bs).length + bs - 1) / bs + 1 := by
  have hlen : 0 < pt.length := List.length_pos.mpr hpt
  simp only [List.length_drop]
  rcases le_or_lt pt.length bs with hle | hlt
  · have h1 : pt.length - bs = 0 := by omega
    rw [h1]
    have h2 : (pt.length + bs - 1) / bs = 1 := Nat.div_eq_of_lt_le (by omega) (by omega)
    have h3 : (0 + bs - 1) / bs = 0 := Nat.div_eq_of_lt (by omega)
    omega
  · have h4 : pt.length + bs - 1 = ((pt.length - bs) + bs - 1) + bs := by omega
    rw [h4, Nat.add_div_right _ hbs]

theorem ctr_count_nil {bs : Nat} (hbs : 0 < bs) :
    ((([] : List Nat)).length + bs - 1) / bs = 0 := by
  simp only [List.length_nil]
  exact Nat.div_eq_of_lt (by omega)

theorem ctr_block_zero_length {bs : Nat} {op : List Nat → List Nat → List Nat}
    {key pt : List Nat} {ctr : Nat} (hop : ∀ b k, (op b k).length = bs) :
    (ctr_block bs op key pt ctr 0).length = min bs pt.length := by
  unfold ctr_block
  rw [xor_bytes_length, hop]
  simp only [Nat.zero_mul, List.drop_zero, List.length_take]
  omega

theorem ctr_flatten_peel {bs : Nat} (hbs : 0 < bs) (op : List Nat → List Nat → List Nat)
    (key : List Nat) {pt : List Nat} (hpt : pt ≠ []) (ctr : Nat) :
    ((List.range ((pt.length + bs - 1) / bs)).map (ctr_block bs op key pt ctr)).flatten =
      ctr_block bs op key pt ctr 0 ++
        ((List.range (((pt.drop bs).length + bs - 1) / bs)).map
          (ctr_block bs op key (pt.drop bs) (ctr + 1))).flatten := by
  rw [ctr_count_succ hbs hpt, List.range_succ_eq_map, List.map_cons, List.flatten_cons,
    List.map_map]
  congr 1
  apply congrArg
  apply List.map_congr_left
  intro j hj
  simp only [Function.comp_apply]
  exact ctr_block_shift bs op key pt ctr j

theorem drop_append_of_length {α : Type} {l₁ : List α} (l₂ : List α) {n m : Nat}
    (h : l₁.length = n) : (l₁ ++ l₂).drop (n + m) = l₂.drop m := by
  subst h
  exact List.drop_append m

theorem ctr_flatten_block {bs : Nat} (hbs : 0 < bs) {op : List Nat → List Nat → List Nat}
    {key : List Nat} (hop : ∀ b k, (op b k).length = bs) :
    ∀ (i : Nat) (pt : List Nat) (ctr : Nat),
      ((((List.range ((pt.length + bs - 1) / bs)).map (ctr_block bs op key pt ctr)).flatten).drop
        (i * bs)).take bs = ctr_block bs op key pt ctr i := by
  intro i
  induction i with
  | zero =>
    intro pt ctr
    by_cases hpt : pt = []
    · subst hpt
      rw [ctr_count_nil hbs]
      simp [ctr_block, xor_bytes]
    · rw [ctr_flatten_peel hbs op key hpt ctr, Nat.zero_mul, List.drop_zero]
      rcases le_or_lt bs pt.length with hge | hlt
      · have hlen0 : (ctr_block bs op key pt ctr 0).length = bs := by
          rw [ctr_block_zero_length hop]; omega
        rw [List.take_left' hlen0]
      · have hdnil : pt.drop bs = [] := List.drop_eq_nil_of_le (by omega)
        rw [hdnil, ctr_count_nil hbs]
        simp only [List.range_zero, List.map_nil, List.flatten_nil, List.append_nil]
        exact List.take_of_length_le (by rw [ctr_block_zero_length hop]; omega)
  | succ i ih =>
    intro pt ctr
    by_cases hpt : pt = []
    · subst hpt
      rw [ctr_count_nil hbs]
      simp [ctr_block, xor_bytes]
    · rw [ctr_flatten_peel hbs op key hpt ctr]
      rcases le_or_lt bs pt.length with hge | hlt
      · have hlen0 : (ctr_block bs op key pt ctr 0).length = bs := by
          rw [ctr_block_zero_length hop]; omega
        have hdrop : (ctr_block bs op key pt ctr 0 ++
            ((List.range (((pt.drop bs).length + bs - 1) / bs)).map
              (ctr_block bs op key (pt.drop bs) (ctr + 1))).flatten).drop ((i + 1) * bs) =
            (((List.range (((pt.drop bs).length + bs - 1) / bs)).map
              (ctr_block bs op key (pt.drop bs) (ctr + 1))).flatten).drop (i * bs) := by
          rw [show (i + 1) * bs = bs + i * bs from by ring]
          exact drop_append_of_length _ hlen0
        rw [hdrop, ih (pt.drop bs) (ctr + 1), ctr_block_shift]
      · have hdnil : pt.drop bs = [] := List.drop_eq_nil_of_le (by omega)
        have hble : bs ≤ (i + 1) * bs := by
          calc bs = 1 * bs := by ring
            _ ≤ (i + 1) * bs := Nat.mul_le_mul_right bs (by omega)
        rw [hdnil, ctr_count_nil hbs]
        simp only [List.range_zero, List.map_nil, List.flatten_nil, List.append_nil]
        have hl : (ctr_block bs op key pt ctr 0).length ≤ (i + 1) * bs := by
          rw [ctr_block_zero_length hop]; omega
        rw [List.drop_eq_nil_of_le hl, List.take_nil]
        have hc : pt.drop ((i + 1) * bs) = [] := List.drop_eq_nil_of_le (by omega)
        simp [ctr_block, hc, xor_bytes]

theorem ctr_flatten_length {bs : Nat} (hbs : 0 < bs) {op : List Nat → List Nat → List Nat}
    {key : List Nat} (hop : ∀ b k, (op b k).length = bs) :
    ∀ (k : Nat) (pt : List Nat) (ctr : Nat), pt.length ≤ k →
      (((List.range ((pt.length + bs - 1) / bs)).map
        (ctr_block bs op key pt ctr)).flatten).length = pt.length := by
  intro k
  induction k with
  | zero =>
    intro pt ctr h
    have hx : pt = [] := List.length_eq_zero.mp (by omega)
    subst hx
    rw [ctr_count_nil hbs]
    simp
  | succ k ih =>
    intro pt ctr h
    by_cases hpt : pt = []
    · subst hpt
      rw [ctr_count_nil hbs]
      simp
    · have hlp : 0 < pt.length := List.length_pos.mpr hpt
      rw [ctr_flatten_peel hbs op key hpt ctr, List.length_append,
        ih (pt.drop bs) (ctr + 1) (by simp only [List.length_drop]; omega),
        ctr_block_zero_length hop]
      simp only [List.length_drop]
      omega

/-! ### Claim theorems -/

set_option maxRecDepth 8000 in
theorem gf_one : ∀ a < 256, gf_multiply a 1 = a := by
  decide

/-- C1: for every 16-byte block and every 16-byte key, with forward/inverse
S-box tables that are mutual inverses on bytes, `decrypt_block` applied to
`encrypt_block` of the block under the 11 round keys derived from the key by
`key_expansion` returns the original block. -/
theorem aes_block_roundtrip (sb isb : List (List Nat)) (key block : List Nat)
    (rks : List (List Nat))
    (hsb : ∀ x < 256, sbox_lookup sb x < 256)
    (hinv : ∀ x < 256, sbox_lookup isb (sbox_lookup sb x) = x)
    (hkey : key.length = 16) (hkeyB : ∀ x ∈ key, x < 256)
    (hrks : key_expansion sb key = Except.ok rks)
    (hblk : block.length = 16) (hblkB : ∀ x ∈ block, x < 256) :
    (encrypt_block sb block rks).bind (fun ct => decrypt_block isb ct rks) =
      Except.ok block := by
  obtain ⟨rks', hok', hlen11, hwf⟩ := key_expansion_ok hsb hkey hkeyB
  rw [hok'] at hrks
  have heq : rks' = rks := Except.ok.inj hrks
  rw [heq] at hlen11 hwf
  have hrkB : ∀ rk ∈ rks, ∀ x ∈ rk, x < 256 := fun rk h => (hwf rk h).2
  have hvB : ValidState (bytes_to_state block) := bytes_to_state_valid hblkB
  have hs0 : ValidState (add_round_key (bytes_to_state block) (rks.getD 0 [])) :=
    add_round_key_valid hvB (getD_mem_bound hrkB 0)
  have he9 : ValidState (encrypt_rounds sb rks 9
      (add_round_key (bytes_to_state block) (rks.getD 0 []))) :=
    encrypt_rounds_valid hsb hrkB 9 _ hs0
  have v1 : ValidState (sub_bytes (encrypt_rounds sb rks 9
      (add_round_key (bytes_to_state block) (rks.getD 0 []))) sb) :=
    sub_bytes_valid he9 hsb
  have v2 : ValidState (shift_rows (sub_bytes (encrypt_rounds sb rks 9
      (add_round_key (bytes_to_state block) (rks.getD 0 []))) sb)) :=
    shift_rows_valid v1
  have v3 : ValidState (add_round_key (shift_rows (sub_bytes (encrypt_rounds sb rks 9
      (add_round_key (bytes_to_state block) (rks.getD 0 []))) sb)) (rks.getD 10 [])) :=
    add_round_key_valid v2 (getD_mem_bound hrkB 10)
  have henc : encrypt_block sb block rks = Except.ok (state_to_bytes
      (add_round_key (shift_rows (sub_bytes (encrypt_rounds sb rks 9
        (add_round_key (bytes_to_state block) (rks.getD 0 []))) sb)) (rks.getD 10 []))) := by
    unfold encrypt_block
    rw [if_neg (by omega), if_neg (by omega)]
  have hbind : ∀ (x : List Nat) (f : List Nat → Except String (List Nat)),
      (Except.ok x).bind f = f x := fun _ _ => rfl
  have hctlen : (state_to_bytes (add_round_key (shift_rows (sub_bytes (encrypt_rounds sb rks 9
      (add_round_key (bytes_to_state block) (rks.getD 0 []))) sb))
      (rks.getD 10 []))).length = 16 := rfl
  rw [henc, hbind]
  unfold decrypt_block
  rw [if_neg (by omega), if_neg (by omega)]
  rw [bytes_to_state_state_to_bytes v3, add_round_key_add_round_key v2,
    decrypt_rounds_encrypt_rounds hsb hinv hrkB 9 _ hs0,
    inv_shift_rows_shift_rows (sub_bytes_valid hs0 hsb),
    inv_sub_bytes_sub_bytes hs0 hinv,
    add_round_key_add_round_key hvB,
    state_to_bytes_bytes_to_state hblk]

/-- The identity byte table: a 16x16 table whose lookup is the identity on
0..255, its own two-sided inverse; used to instantiate S-box hypotheses. -/
def idTable : List (List Nat) :=
  (List.range 16).map (fun r => (List.range 16).map (fun c => 16 * r + c))

def wKey : List Nat :=
  [43, 126, 21, 22, 40, 174, 210, 166, 171, 247, 21, 136, 9, 207, 79, 60]

def wBlock : List Nat :=
  [50, 67, 246, 168, 136, 90, 48, 141, 49, 49, 152, 162, 224, 55, 7, 52]

def wRKS : List (List Nat) := (key_expansion idTable wKey).toOption.getD []

set_option maxRecDepth 40000 in
set_option maxHeartbeats 1000000 in
theorem aes_block_roundtrip_witness :
    (encrypt_block idTable wBlock wRKS).bind (fun ct => decrypt_block idTable ct wRKS) =
      Except.ok wBlock :=
  aes_block_roundtrip idTable idTable wKey wBlock wRKS (by decide) (by decide) (by decide)
    (by decide) (by rfl) (by decide) (by decide)

/-- C6: on bytes, `gf_multiply` is commutative, distributes over XOR, has 1
as right identity and 0 as annihilator. -/
theorem gf_multiply_algebra : ∀ a < 256, ∀ b < 256, ∀ c < 256,
    gf_multiply a b = gf_multiply b a ∧
    gf_multiply a (b ^^^ c) = gf_multiply a b ^^^ gf_multiply a c ∧
    gf_multiply a 1 = a ∧ gf_multiply a 0 = 0 := by
  intro a ha b hb c hc
  exact ⟨gf_multiply_comm a ha b hb, gf_multiply_xor_right a b c, gf_one a ha,
    gf_multiply_zero_right a⟩

theorem gf_multiply_algebra_witness :
    gf_multiply 0x57 0x13 = gf_multiply 0x13 0x57 ∧
    gf_multiply 0x57 (0x13 ^^^ 0x2A) = gf_multiply 0x57 0x13 ^^^ gf_multiply 0x57 0x2A ∧
    gf_multiply 0x57 1 = 0x57 ∧ gf_multiply 0x57 0 = 0 :=
  gf_multiply_algebra 0x57 (by norm_num) 0x13 (by norm_num) 0x2A (by norm_num)

/-- C4: on a 16-byte key, `key_expansion` returns exactly 11 round keys of 16
bytes each, with words 0-3 the raw key in 4-byte chunks and every word
`i = 4..43` equal to `w[i-4] XOR temp`, where `temp` applies RotWord,
SubWord and the `Rcon[i/4]` XOR to `w[i-1]` exactly when `i mod 4 = 0`;
any other key length yields the invalid-input error. -/
theorem key_expansion_full_spec (sb : List (List Nat)) (key : List Nat)
    (hsb : ∀ x < 256, sbox_lookup sb x < 256) :
    (key.length = 16 → (∀ x ∈ key, x < 256) →
      ∃ w rks, key_expansion_words sb key = Except.ok w ∧
        key_expansion sb key = Except.ok rks ∧
        rks.length = 11 ∧ (∀ rk ∈ rks, rk.length = 16) ∧
        w.length = 44 ∧
        (∀ j, j < 4 → w.getD j [] = (key.drop (j * 4)).take 4) ∧
        (∀ i, 4 ≤ i → i < 44 →
          ∃ rc, rcon (i / 4) = Except.ok rc ∧
            w.getD i [] = xor_bytes (w.getD (i - 4) [])
              (if i % 4 = 0 then xor_bytes (sub_word sb (rot_word (w.getD (i - 1) []))) rc
               else w.getD (i - 1) []))) ∧
    (key.length ≠ 16 →
      key_expansion sb key = Except.error "Key must be exactly 16 bytes (128 bits)") := by
  constructor
  · intro hk hkB
    obtain ⟨w, hwok, hwlen, hpre, hrec, hwf⟩ := key_expansion_words_spec hsb hk hkB
    obtain ⟨rks, hok, hlen11, hrkwf⟩ := key_expansion_ok hsb hk hkB
    refine ⟨w, rks, hwok, hok, hlen11, fun rk h => (hrkwf rk h).1, hwlen, hpre, ?_⟩
    intro i h4 h44
    refine ⟨[rcon_values.getD (i / 4 - 1) 0, 0x00, 0x00, 0x00], ?_, ?_⟩
    · unfold rcon
      rw [if_neg (by omega)]
    · rw [hrec i h4 h44]
      rfl
  · intro hk
    unfold key_expansion
    rw [if_pos hk]

set_option maxRecDepth 40000 in
set_option maxHeartbeats 1000000 in
theorem key_expansion_full_spec_witness :
    key_expansion idTable wKey = Except.ok wRKS ∧ wRKS.length = 11 ∧
    key_expansion idTable [1, 2, 3] =
      Except.error "Key must be exactly 16 bytes (128 bits)" := by
  obtain ⟨w, rks, -, hok, hlen, -, -, -, -⟩ :=
    (key_expansion_full_spec idTable wKey (by decide)).1 rfl (by decide)
  have heq : rks = wRKS := by
    have h2 : Except.ok (ε := String) rks = Except.ok wRKS := by
      rw [← hok]
      rfl
    exact Except.ok.inj h2
  exact ⟨by rw [hok, heq], by rw [← heq]; exact hlen,
    (key_expansion_full_spec idTable [1, 2, 3] (by decide)).2 (by decide)⟩

/-- C8: the invalid-range branch of `rcon` is unreachable from
`key_expansion` on a 16-byte key: every round-constant index used lies in
1..10, so `key_expansion` always succeeds. -/
theorem key_expansion_rcon_safe (sb : List (List Nat)) (key : List Nat)
    (hsb : ∀ x < 256, sbox_lookup sb x < 256)
    (hk : key.length = 16) (hkB : ∀ x ∈ key, x < 256) :
    (∃ rks, key_expansion sb key = Except.ok rks) ∧
    (∀ i, 4 ≤ i → i < 44 → ∃ rc, rcon (i / 4) = Except.ok rc) := by
  obtain ⟨rks, hok, -, -⟩ := key_expansion_ok hsb hk hkB
  refine ⟨⟨rks, hok⟩, ?_⟩
  intro i h4 h44
  refine ⟨[rcon_values.getD (i / 4 - 1) 0, 0x00, 0x00, 0x00], ?_⟩
  unfold rcon
  rw [if_neg (by omega)]

set_option maxRecDepth 40000 in
set_option maxHeartbeats 1000000 in
theorem key_expansion_rcon_safe_witness :
    (∃ rks, key_expansion idTable wKey = Except.ok rks) ∧
    (∀ i, 4 ≤ i → i < 44 → ∃ rc, rcon (i / 4) = Except.ok rc) :=
  key_expansion_rcon_safe idTable wKey (by decide) rfl (by decide)

/-- C2 counterexample: with the identity block operation — which is its own
inverse and length-preserving — a one-byte plaintext under a two-byte block
size round-trips to `[1]`, not to `zero_pad([1]) = [1, 0]`: the trailing
padding zero is removed by the `rstrip` in `mode_cbc_decrypt`. -/
theorem cbc_roundtrip_counterexample :
    (mode_cbc_encrypt 2 (by norm_num) (fun b _ => b) [1] [] [0, 0]).bind
        (fun ct => mode_cbc_decrypt 2 (by norm_num) (fun b _ => b) ct [] [0, 0]) ≠
      Except.ok (zero_pad 2 [1]) := by
  have h1 : (mode_cbc_encrypt 2 (by norm_num) (fun b _ => b) [1] [] [0, 0]).bind
      (fun ct => mode_cbc_decrypt 2 (by norm_num) (fun b _ => b) ct [] [0, 0]) =
      Except.ok [1] := by
    simp [mode_cbc_encrypt, mode_cbc_decrypt, cbc_encrypt_loop, cbc_decrypt_loop,
      zero_pad, xor_bytes, rstrip_zeros, Except.bind]
  rw [h1]
  intro hc
  have h2 := Except.ok.inj hc
  simp [zero_pad] at h2

/-- C2 amended: for a block-size IV and a block operation pair that is
inverse and length-preserving, the CBC round trip returns `zero_pad(p)` with
its trailing zero bytes stripped (so it equals `zero_pad(p)` only when the
padded plaintext does not end in a zero byte). -/
theorem cbc_roundtrip (bs : Nat) (hbs : 0 < bs)
    (op_e op_d : List Nat → List Nat → List Nat) (pt key iv : List Nat)
    (hinv : ∀ b, b.length = bs → op_d (op_e b key) key = b)
    (hlen : ∀ b, b.length = bs → (op_e b key).length = bs)
    (hiv : iv.length = bs) :
    (mode_cbc_encrypt bs hbs op_e pt key iv).bind
        (fun ct => mode_cbc_decrypt bs hbs op_d ct key iv) =
      Except.ok (rstrip_zeros (zero_pad bs pt)) := by
  have h1 : mode_cbc_encrypt bs hbs op_e pt key iv =
      Except.ok (cbc_encrypt_loop bs hbs op_e key iv (zero_pad bs pt)) := by
    unfold mode_cbc_encrypt
    rw [if_neg (by omega)]
  have hbind : ∀ (x : List Nat) (f : List Nat → Except String (List Nat)),
      (Except.ok x).bind f = f x := fun _ _ => rfl
  rw [h1, hbind]
  unfold mode_cbc_decrypt
  rw [if_neg (by omega)]
  apply congrArg
  apply congrArg
  obtain ⟨k, hk⟩ := zero_pad_dvd hbs pt
  exact cbc_loop_roundtrip hbs hinv hlen k _ iv hk hiv

theorem cbc_roundtrip_witness :
    (mode_cbc_encrypt 2 (by norm_num) (fun b _ => b) [3, 1] [] [5, 6]).bind
        (fun ct => mode_cbc_decrypt 2 (by norm_num) (fun b _ => b) ct [] [5, 6]) =
      Except.ok (rstrip_zeros (zero_pad 2 [3, 1])) :=
  cbc_roundtrip 2 (by norm_num) (fun b _ => b) (fun b _ => b) [3, 1] [] [5, 6]
    (fun _ _ => rfl) (fun _ hb => hb) rfl

/-- C3 counterexample: `mode_ofb` performs no IV-length validation at entry:
called with a 1-byte IV and block size 2 it silently produces output (here
the IV is fed to the block operation and `zip` truncates), instead of
raising an invalid-input error. -/
theorem mode_ofb_no_iv_check :
    mode_ofb 2 (by norm_num) (fun b _ => b) [7, 7] [] [0] = [7] ∧
      ([0] : List Nat).length ≠ 2 := by
  constructor
  · simp [mode_ofb, ofb_loop, xor_bytes]
  · decide

/-- C3 amended: `mode_cbc_encrypt` and `mode_cbc_decrypt` raise the
invalid-input error at entry for an IV whose length differs from the block
size, and `mode_ctr` raises at entry when the nonce is longer than the block
size, in each case producing no output; `mode_ofb` performs no such check
(see the counterexample). -/
theorem mode_entry_checks (bs : Nat) (hbs : 0 < bs)
    (op : List Nat → List Nat → List Nat) (pt key iv nonce : List Nat)
    (hiv : iv.length ≠ bs) (hnonce : nonce.length > bs) :
    mode_cbc_encrypt bs hbs op pt key iv =
      Except.error "Initialization vector must match block size." ∧
    mode_cbc_decrypt bs hbs op pt key iv =
      Except.error "Initialization vector must match block size." ∧
    mode_ctr bs op pt key nonce =
      Except.error "Nonce cannot be longer than block size." := by
  refine ⟨?_, ?_, ?_⟩
  · unfold mode_cbc_encrypt
    rw [if_pos (by omega)]
  · unfold mode_cbc_decrypt
    rw [if_pos (by omega)]
  · unfold mode_ctr
    rw [if_pos (by omega)]

theorem mode_entry_checks_witness :
    mode_cbc_encrypt 16 (by norm_num) (fun b _ => b) [1] [] [9] =
      Except.error "Initialization vector must match block size." ∧
    mode_cbc_decrypt 16 (by norm_num) (fun b _ => b) [1] [] [9] =
      Except.error "Initialization vector must match block size." ∧
    mode_ctr 16 (fun b _ => b) [1] [] (List.replicate 17 0) =
      Except.error "Nonce cannot be longer than block size." :=
  mode_entry_checks 16 (by norm_num) (fun b _ => b) [1] [] [9] (List.replicate 17 0)
    (by decide) (by decide)

/-- C5: for a nonce no longer than the block size and a length-preserving
block operation, `mode_ctr` succeeds and its `i`-th output block is the
`i`-th plaintext block XORed with the encryption of the counter
`(nonce zero-extended, read big-endian) + i mod 2^(8*block_size)` — so block
`i` depends only on the key, the nonce, `i` and plaintext block `i`. -/
theorem mode_ctr_block_formula (bs : Nat) (hbs : 0 < bs)
    (op : List Nat → List Nat → List Nat) (pt key nonce : List Nat)
    (hn : nonce.length ≤ bs) (hop : ∀ b k, (op b k).length = bs) :
    ∃ out, mode_ctr bs op pt key nonce = Except.ok out ∧
      ∀ i, (out.drop (i * bs)).take bs =
        xor_bytes ((pt.drop (i * bs)).take bs)
          (op (to_bytes_be bs
            ((from_bytes_be (nonce ++ List.replicate (bs - nonce.length) 0) + i) %
              2 ^ (bs * 8))) key) := by
  refine ⟨((List.range ((pt.length + bs - 1) / bs)).map
      (ctr_block bs op key pt
        (from_bytes_be (nonce ++ List.replicate (bs - nonce.length) 0)))).flatten, ?_, ?_⟩
  · unfold mode_ctr
    rw [if_neg (by omega)]
  · intro i
    exact ctr_flatten_block hbs hop i pt _

theorem mode_ctr_block_formula_witness :
    ∃ out, mode_ctr 2 (fun _ _ => [9, 9]) [5, 6, 7] [] [1] = Except.ok out ∧
      ∀ i, (out.drop (i * 2)).take 2 =
        xor_bytes (([5, 6, 7].drop (i * 2)).take 2)
          ((fun _ _ => [9, 9]) (to_bytes_be 2
            ((from_bytes_be ([1] ++ List.replicate (2 - ([1] : List Nat).length) 0) + i) %
              2 ^ (2 * 8))) ([] : List Nat)) :=
  mode_ctr_block_formula 2 (by norm_num) (fun _ _ => [9, 9]) [5, 6, 7] [] [1]
    (by decide) (fun _ _ => rfl)

/-- C9: for a length-preserving block operation, `mode_ofb` (with a
block-size IV) and `mode_ctr` (with a nonce no longer than the block size)
produce output of exactly the plaintext's length: the final keystream block
is truncated by `zip` rather than the input padded. -/
theorem stream_modes_length (bs : Nat) (hbs : 0 < bs)
    (op : List Nat → List Nat → List Nat) (pt key iv nonce : List Nat)
    (hop : ∀ b k, (op b k).length = bs) (hiv : iv.length = bs)
    (hn : nonce.length ≤ bs) :
    (mode_ofb bs hbs op pt key iv).length = pt.length ∧
    ∃ out, mode_ctr bs op pt key nonce = Except.ok out ∧ out.length = pt.length := by
  constructor
  · exact ofb_loop_length hbs hop pt.length pt iv (le_refl _)
  · refine ⟨((List.range ((pt.length + bs - 1) / bs)).map
        (ctr_block bs op key pt
          (from_bytes_be (nonce ++ List.replicate (bs - nonce.length) 0)))).flatten, ?_, ?_⟩
    · unfold mode_ctr
      rw [if_neg (by omega)]
    · exact ctr_flatten_length hbs hop pt.length pt _ (le_refl _)

theorem stream_modes_length_witness :
    (mode_ofb 2 (by norm_num) (fun _ _ => [9, 9]) [5, 6, 7] [] [4, 4]).length =
      ([5, 6, 7] : List Nat).length ∧
    ∃ out, mode_ctr 2 (fun _ _ => [9, 9]) [5, 6, 7] [] [1] = Except.ok out ∧
      out.length = ([5, 6, 7] : List Nat).length :=
  stream_modes_length 2 (by norm_num) (fun _ _ => [9, 9]) [5, 6, 7] [] [4, 4] [1]
    (fun _ _ => rfl) rfl (by decide)

/-- C10: the zero padding added by `mode_ecb_encrypt`/`mode_cbc_encrypt` has
exactly `(block_size - len % block_size) % block_size` bytes, which is always
less than a full block; when the length is already a multiple no padding is
added, and the empty plaintext encrypts to the empty byte string in both
modes. -/
theorem padding_spec (bs : Nat) (hbs : 0 < bs)
    (op : List Nat → List Nat → List Nat) (pt key iv : List Nat)
    (hiv : iv.length = bs) :
    (zero_pad bs pt).length = pt.length + (bs - pt.length % bs) % bs ∧
    (bs - pt.length % bs) % bs < bs ∧
    (bs ∣ pt.length → zero_pad bs pt = pt) ∧
    mode_ecb_encrypt bs hbs op [] key = [] ∧
    mode_cbc_encrypt bs hbs op [] key iv = Except.ok [] := by
  have hz : zero_pad bs [] = [] := zero_pad_of_dvd (dvd_zero bs)
  refine ⟨zero_pad_length bs pt, Nat.mod_lt _ hbs, fun h => zero_pad_of_dvd h, ?_, ?_⟩
  · unfold mode_ecb_encrypt
    rw [show zero_pad bs [] = [] from hz]
    simp [ecb_loop]
  · unfold mode_cbc_encrypt
    rw [if_neg (by omega), show zero_pad bs [] = [] from hz]
    simp [cbc_encrypt_loop]

theorem padding_spec_witness :
    (zero_pad 16 [1, 2, 3]).length = ([1, 2, 3] : List Nat).length + (16 - 3 % 16) % 16 ∧
    (16 - ([1, 2, 3] : List Nat).length % 16) % 16 < 16 ∧
    (16 ∣ ([1, 2, 3] : List Nat).length → zero_pad 16 [1, 2, 3] = [1, 2, 3]) ∧
    mode_ecb_encrypt 16 (by norm_num) (fun b _ => b) [] [] = [] ∧
    mode_cbc_encrypt 16 (by norm_num) (fun b _ => b) [] [] (List.replicate 16 0) =
      Except.ok [] :=
  padding_spec 16 (by norm_num) (fun b _ => b) [1, 2, 3] [] (List.replicate 16 0) rfl

/-- C7: a 15-byte block makes `encrypt_block` raise the invalid-length
error; a 10-byte key makes `aes_encrypt_wrapper` and `key_expansion` raise
the invalid-length error; a 10-byte IV makes `mode_cbc_encrypt` and
`mode_cbc_decrypt` raise the invalid-length error — each before any block
operation runs, so no output is produced. -/
theorem invalid_length_errors (sb : List (List Nat))
    (blk15 key10 iv10 block pt key : List Nat) (rks : List (List Nat))
    (op : List Nat → List Nat → List Nat)
    (hb : blk15.length = 15) (hk : key10.length = 10) (hiv : iv10.length = 10) :
    encrypt_block sb blk15 rks = Except.error "Plaintext must be exactly 16 bytes" ∧
    aes_encrypt_wrapper sb block key10 =
      Except.error "Key must be exactly 16 bytes (128 bits)" ∧
    key_expansion sb key10 = Except.error "Key must be exactly 16 bytes (128 bits)" ∧
    mode_cbc_encrypt 16 (by norm_num) op pt key iv10 =
      Except.error "Initialization vector must match block size." ∧
    mode_cbc_decrypt 16 (by norm_num) op pt key iv10 =
      Except.error "Initialization vector must match block size." := by
  refine ⟨?_, ?_, ?_, ?_, ?_⟩
  · unfold encrypt_block
    rw [if_pos (by omega)]
  · unfold aes_encrypt_wrapper
    rw [if_pos (by omega)]
  · unfold key_expansion
    rw [if_pos (by omega)]
  · unfold mode_cbc_encrypt
    rw [if_pos (by omega)]
  · unfold mode_cbc_decrypt
    rw [if_pos (by omega)]

theorem invalid_length_errors_witness :
    encrypt_block [] (List.replicate 15 0) [] =
      Except.error "Plaintext must be exactly 16 bytes" ∧
    aes_encrypt_wrapper [] [] (List.replicate 10 1) =
      Except.error "Key must be exactly 16 bytes (128 bits)" ∧
    key_expansion [] (List.replicate 10 1) =
      Except.error "Key must be exactly 16 bytes (128 bits)" ∧
    mode_cbc_encrypt 16 (by norm_num) (fun b _ => b) [2] [] (List.replicate 10 3) =
      Except.error "Initialization vector must match block size." ∧
    mode_cbc_decrypt 16 (by norm_num) (fun b _ => b) [2] [] (List.replicate 10 3) =
      Except.error "Initialization vector must match block size." :=
  invalid_length_errors [] (List.replicate 15 0) (List.replicate 10 1) (List.replicate 10 3)
    [] [2] [] [] (fun b _ => b) (by decide) (by decide) (by decide)

end KryptoAES
